import Mathlib

/-!
Verification development for the `pretty` Go package (domonda/go-pretty).

The embedding follows the canonical (most recent) version of the sources:
`Printer.fprint` / `Printer.fprintIndent` / `Printer.sortReflectValues` /
`quoteString` (printer source file) and `Indent` (indent.go).

Modelling conventions:
  * Go strings that are valid UTF-8 are modelled as `List Char`
    (one entry per decoded rune); `[]byte` values are modelled as `List Nat`
    at the byte level.
  * Go's `fmt.Sprintf("%#q", s)` on strings is modelled after the
    documented behaviour of the standard library (`strconv.CanBackquote`
    and `strconv.Quote`); the non-ASCII part of `unicode.IsPrint` is an
    approximation of the Unicode tables (exact for all characters used in
    the theorems below).
  * Iterating `for i := range q` over a Go string yields exactly the byte
    offsets at which runes start; the byte-offset cut in `quoteString` is
    therefore modelled by walking the rune list while accumulating
    UTF-8 byte offsets.
-/

namespace GoPretty

/-- Printer configuration: `MaxStringLength`, `MaxErrorLength`,
`MaxSliceLength` (a value `<= 0` disables the corresponding truncation). -/
structure Cfg where
  maxStringLength : Int
  maxErrorLength : Int
  maxSliceLength : Int
deriving DecidableEq

/-- The token printed instead of a circular data reference. -/
def CircularRef : String := "CIRCULAR_REF"

/-- The backquote character (written via its code point). -/
def backquote : Char := Char.ofNat 96

/-- Number of bytes of the UTF-8 encoding of a character. -/
def utf8CharLen (c : Char) : Nat :=
  if c.toNat < 0x80 then 1
  else if c.toNat < 0x800 then 2
  else if c.toNat < 0x10000 then 3
  else 4

/-- UTF-8 byte length of a character list. -/
def charListBytes (l : List Char) : Nat := (l.map utf8CharLen).sum

/-- Model of `strconv.CanBackquote` on a single character:
multi-byte characters are allowed except the byte-order mark; single-byte
characters must not be control characters (other than tab), the backquote,
or DEL. -/
def canBackquoteChar (c : Char) : Bool :=
  let v := c.toNat
  if 0x80 ≤ v then v != 0xFEFF
  else if v < 0x20 then v == 9
  else v != 96 && v != 0x7F

/-- Model of `strconv.CanBackquote`. -/
def canBackquote (s : List Char) : Bool := s.all canBackquoteChar

/-- Printability used by `strconv.Quote`. ASCII is exact; for non-ASCII
this approximates the Unicode tables (C1 controls 0x80..0x9F, NBSP and
SOFT HYPHEN are not printable, the rest is treated as printable). -/
def goIsPrint (c : Char) : Bool :=
  let v := c.toNat
  if v < 0x20 then false
  else if v ≤ 0x7E then true
  else if v ≤ 0xA0 then false
  else v != 0xAD

/-- Lower-case hex digit. -/
def hexDigit (n : Nat) : Char :=
  if n < 10 then Char.ofNat (48 + n) else Char.ofNat (87 + n)

/-- Two lower-case hex digits. -/
def hex2 (n : Nat) : List Char := [hexDigit (n / 16 % 16), hexDigit (n % 16)]

/-- Four lower-case hex digits. -/
def hex4 (n : Nat) : List Char :=
  [hexDigit (n / 4096 % 16), hexDigit (n / 256 % 16), hexDigit (n / 16 % 16), hexDigit (n % 16)]

/-- Eight lower-case hex digits. -/
def hex8 (n : Nat) : List Char := hex4 (n / 65536) ++ hex4 (n % 65536)

/-- Model of the escaping `strconv.Quote` applies to one rune
(quote character `"`). -/
def escapeChar (c : Char) : List Char :=
  let v := c.toNat
  if c = '"' ∨ c = '\\' then ['\\', c]
  else if goIsPrint c then [c]
  else if v = 7 then ['\\', 'a']
  else if v = 8 then ['\\', 'b']
  else if v = 12 then ['\\', 'f']
  else if v = 10 then ['\\', 'n']
  else if v = 13 then ['\\', 'r']
  else if v = 9 then ['\\', 't']
  else if v = 11 then ['\\', 'v']
  else if v < 0x20 ∨ v = 0x7F then '\\' :: 'x' :: hex2 v
  else if v < 0x10000 then '\\' :: 'u' :: hex4 v
  else '\\' :: 'U' :: hex8 v

/-- Model of `strconv.Quote`: escaped content between `"` delimiters. -/
def goQuoteEsc (s : List Char) : List Char :=
  '"' :: (s.map escapeChar).flatten ++ ['"']

/-- Model of `fmt.Sprintf("%#q", s)`: backquoted raw form when possible,
otherwise the escaped double-quoted form. -/
def goQuoteHash (s : List Char) : List Char :=
  if canBackquote s then backquote :: s ++ [backquote] else goQuoteEsc s

/-- The byte-offset loop of `quoteString`: Go's `for i := range q` visits
exactly the rune-start byte offsets of `q`; the loop keeps every rune whose
start offset is `≤ maxLen` and cuts at the first rune start `> maxLen`. -/
def cutRuneStarts : List Char → Nat → Int → List Char
  | [], _, _ => []
  | c :: rest, off, maxLen =>
    if (off : Int) > maxLen then []
    else c :: cutRuneStarts rest (off + utf8CharLen c) maxLen

/-- `q[len(q)-1:]`: the (single-byte) closing delimiter of the quoted text. -/
def lastByte (q : List Char) : List Char := q.drop (q.length - 1)

/-- The final step of `quoteString`: if the quoted text is delimited by
double quotes, replace both delimiters by backquotes. -/
def replaceQuotes (q : List Char) : List Char :=
  if q.head? = some '"' ∧ q.getLast? = some '"' then
    backquote :: (q.drop 1).dropLast ++ [backquote]
  else q

/-- Model of `quoteString(s, maxLen)` (printer source):
quote with `%#q`, truncate at the first rune-start byte offset beyond
`maxLen` when `maxLen > 0` and the quoted byte length minus the two
delimiter bytes exceeds `maxLen`, then replace double-quote delimiters by
backquotes. -/
def quoteStringM (s : List Char) (maxLen : Int) : List Char :=
  replaceQuotes
    (if 0 < maxLen ∧ (charListBytes (goQuoteHash s) : Int) - 2 > maxLen then
      cutRuneStarts (goQuoteHash s) 0 maxLen ++ '…' :: lastByte (goQuoteHash s)
    else goQuoteHash s)

/-- The quoted content between the two delimiters of `%#q` output. -/
def quotedContent (s : List Char) : List Char :=
  if canBackquote s then s else (s.map escapeChar).flatten

/-- The delimiter character chosen by `%#q`. -/
def quoteDelim (s : List Char) : Char :=
  if canBackquote s then backquote else '"'

theorem utf8CharLen_pos (c : Char) : 1 ≤ utf8CharLen c := by
  unfold utf8CharLen; split <;> try omega
  split <;> try omega
  split <;> omega

theorem length_le_charListBytes (l : List Char) : l.length ≤ charListBytes l := by
  induction l with
  | nil => simp [charListBytes]
  | cons c rest ih =>
    have := utf8CharLen_pos c
    simp only [charListBytes, List.map_cons, List.sum_cons, List.length_cons]
    simp only [charListBytes] at ih
    omega

theorem charListBytes_append (l₁ l₂ : List Char) :
    charListBytes (l₁ ++ l₂) = charListBytes l₁ + charListBytes l₂ := by
  simp [charListBytes]

theorem goQuoteHash_eq (s : List Char) :
    goQuoteHash s = quoteDelim s :: quotedContent s ++ [quoteDelim s] := by
  unfold goQuoteHash quoteDelim quotedContent goQuoteEsc
  by_cases h : canBackquote s <;> simp [h]

theorem replaceQuotes_raw (l : List Char) :
    replaceQuotes (backquote :: l) = backquote :: l := by
  unfold replaceQuotes
  have : backquote ≠ '"' := by decide
  simp [this]

theorem replaceQuotes_esc (l : List Char) :
    replaceQuotes ('"' :: l ++ ['"']) = backquote :: l ++ [backquote] := by
  unfold replaceQuotes
  have h1 : ('"' :: l ++ ['"']).head? = some '"' := rfl
  have h2 : ('"' :: l ++ ['"']).getLast? = some '"' := by
    rw [show '"' :: l ++ ['"'] = ('"' :: l) ++ ['"'] by simp]
    exact List.getLast?_concat _
  simp only [h1, h2, and_self, if_pos]
  rw [show '"' :: l ++ ['"'] = ('"' :: l) ++ ['"'] by simp]
  simp [List.dropLast_concat]

theorem cutRuneStarts_nil_of_gt (l : List Char) (off : Nat) (m : Int) (h : m < off) :
    cutRuneStarts l off m = [] := by
  cases l with
  | nil => rfl
  | cons c rest => simp [cutRuneStarts, h]

theorem cutRuneStarts_eq_take (l : List Char) (off : Nat) (m : Int) :
    cutRuneStarts l off m = l.take (cutRuneStarts l off m).length := by
  induction l generalizing off with
  | nil => rfl
  | cons c rest ih =>
    by_cases h : (off : Int) > m
    · simp [cutRuneStarts, h]
    · simp only [cutRuneStarts, h, if_neg, not_false_iff, List.length_cons, List.take_succ_cons]
      exact congrArg (List.cons c) (ih (off + utf8CharLen c))

theorem cutRuneStarts_length_le (l : List Char) (off : Nat) (m : Int) (h : (off : Int) ≤ m) :
    ((cutRuneStarts l off m).length : Int) ≤ m - off + 1 := by
  induction l generalizing off with
  | nil => simp [cutRuneStarts]; omega
  | cons c rest ih =>
    have hng : ¬ ((off : Int) > m) := not_lt.mpr h
    simp only [cutRuneStarts, hng, if_neg, not_false_iff, List.length_cons]
    by_cases h2 : ((off + utf8CharLen c : Nat) : Int) ≤ m
    · have := ih (off + utf8CharLen c) h2
      have hp := utf8CharLen_pos c
      push_cast at this ⊢
      omega
    · have : cutRuneStarts rest (off + utf8CharLen c) m = [] :=
        cutRuneStarts_nil_of_gt _ _ _ (by omega)
      simp [this]
      omega

theorem cutRuneStarts_bytes_le (l : List Char) (off : Nat) (m : Int) :
    ∀ j, j < (cutRuneStarts l off m).length →
      (off : Int) + charListBytes (l.take j) ≤ m := by
  induction l generalizing off with
  | nil => intro j hj; simp [cutRuneStarts] at hj
  | cons c rest ih =>
    intro j hj
    by_cases h : (off : Int) > m
    · simp [cutRuneStarts, h] at hj
    · match j with
      | 0 => simpa [charListBytes] using not_lt.mp h
      | Nat.succ j =>
        have hj' : j < (cutRuneStarts rest (off + utf8CharLen c) m).length := by
          simp only [cutRuneStarts, h, if_neg, not_false_iff] at hj
          simpa using hj
        have := ih (off + utf8CharLen c) j hj'
        simp only [List.take_succ_cons, charListBytes, List.map_cons, List.sum_cons]
        simp only [charListBytes] at this
        push_cast at this ⊢
        omega

theorem cutRuneStarts_bytes_gt (l : List Char) (off : Nat) (m : Int)
    (h : (cutRuneStarts l off m).length < l.length) :
    m < (off : Int) + charListBytes (l.take (cutRuneStarts l off m).length) := by
  induction l generalizing off with
  | nil => simp at h
  | cons c rest ih =>
    by_cases hgt : (off : Int) > m
    · have : cutRuneStarts (c :: rest) off m = [] := cutRuneStarts_nil_of_gt _ _ _ hgt
      simpa [this, charListBytes] using hgt
    · have hstep : cutRuneStarts (c :: rest) off m
          = c :: cutRuneStarts rest (off + utf8CharLen c) m := by
        simp [cutRuneStarts, hgt]
      rw [hstep] at h ⊢
      simp only [List.length_cons, List.take_succ_cons] at h ⊢
      have h' : (cutRuneStarts rest (off + utf8CharLen c) m).length < rest.length := by omega
      have := ih (off + utf8CharLen c) h'
      simp only [charListBytes, List.map_cons, List.sum_cons]
      simp only [charListBytes] at this
      push_cast at this ⊢
      omega

theorem quoteStringM_no_trunc (s : List Char) (maxLen : Int)
    (h : ¬(0 < maxLen ∧ (charListBytes (goQuoteHash s) : Int) - 2 > maxLen)) :
    quoteStringM s maxLen = replaceQuotes (goQuoteHash s) := by
  unfold quoteStringM
  rw [if_neg h]

theorem quoteStringM_trunc (s : List Char) (maxLen : Int)
    (h : 0 < maxLen ∧ (charListBytes (goQuoteHash s) : Int) - 2 > maxLen) :
    quoteStringM s maxLen
      = replaceQuotes (cutRuneStarts (goQuoteHash s) 0 maxLen
          ++ '…' :: lastByte (goQuoteHash s)) := by
  unfold quoteStringM
  rw [if_pos h]

theorem utf8CharLen_quoteDelim (s : List Char) : utf8CharLen (quoteDelim s) = 1 := by
  unfold quoteDelim
  split <;> decide

theorem charListBytes_goQuoteHash (s : List Char) :
    charListBytes (goQuoteHash s) = 2 + charListBytes (quotedContent s) := by
  rw [goQuoteHash_eq]
  simp [charListBytes, utf8CharLen_quoteDelim s]
  have := utf8CharLen_quoteDelim s
  simp [charListBytes] at this ⊢
  omega

theorem lastByte_goQuoteHash (s : List Char) :
    lastByte (goQuoteHash s) = [quoteDelim s] := by
  rw [goQuoteHash_eq]
  unfold lastByte
  rw [show quoteDelim s :: quotedContent s ++ [quoteDelim s]
      = (quoteDelim s :: quotedContent s) ++ [quoteDelim s] by simp]
  rw [List.length_append]
  simp

/-- Shape of the truncation cut: it keeps a nonempty, proper rune prefix of
the quoted text; its byte length is the least rune-boundary byte count
exceeding `maxLen`; and the kept rune count is at most `maxLen + 1`
(delimiter included). -/
theorem trunc_shape (s : List Char) (maxLen : Int) (h0 : 0 < maxLen)
    (ht : maxLen < (charListBytes (goQuoteHash s) : Int) - 2) :
    ∃ k, 1 ≤ k ∧ k < (goQuoteHash s).length ∧
      cutRuneStarts (goQuoteHash s) 0 maxLen = (goQuoteHash s).take k ∧
      maxLen < (charListBytes ((goQuoteHash s).take k) : Int) ∧
      (∀ j, j < k → (charListBytes ((goQuoteHash s).take j) : Int) ≤ maxLen) ∧
      (k : Int) ≤ maxLen + 1 := by
  set q := goQuoteHash s with hq
  set K := (cutRuneStarts q 0 maxLen).length with hK
  have heqtake : cutRuneStarts q 0 maxLen = q.take K := cutRuneStarts_eq_take q 0 maxLen
  have hKle : K ≤ q.length := by
    have h1 := congrArg List.length heqtake
    rw [← hK] at h1
    simp [List.length_take] at h1
    omega
  have hqshape := goQuoteHash_eq s
  have hK1 : 1 ≤ K := by
    rw [hK, hq, hqshape]
    have hng : ¬ ((0 : Nat) : Int) > maxLen := by omega
    simp only [List.cons_append, cutRuneStarts, hng, if_neg, not_false_iff, List.length_cons]
    omega
  have hqlen : q.length = (quotedContent s).length + 2 := by
    rw [hq, hqshape]; simp
  have hbytes : (charListBytes q : Int) = 2 + charListBytes (quotedContent s) := by
    rw [hq]; exact_mod_cast charListBytes_goQuoteHash s
  have hKlt : K < q.length := by
    by_contra hcon
    have hKeq : K = q.length := by omega
    have hj : q.length - 1 < K := by omega
    have hle := cutRuneStarts_bytes_le q 0 maxLen (q.length - 1) hj
    have htake : q.take (q.length - 1) = quoteDelim s :: quotedContent s := by
      rw [hq, hqshape]
      rw [show quoteDelim s :: quotedContent s ++ [quoteDelim s]
          = (quoteDelim s :: quotedContent s) ++ [quoteDelim s] by simp]
      rw [List.length_append]
      simp
    rw [htake] at hle
    have hb : charListBytes (quoteDelim s :: quotedContent s)
        = 1 + charListBytes (quotedContent s) := by
      have := utf8CharLen_quoteDelim s
      simp [charListBytes] at this ⊢
      omega
    rw [hb] at hle
    push_cast at hle
    omega
  refine ⟨K, hK1, hKlt, heqtake, ?_, ?_, ?_⟩
  · have := cutRuneStarts_bytes_gt q 0 maxLen (by rw [← hK]; exact hKlt)
    simpa [← hK] using this
  · intro j hj
    have := cutRuneStarts_bytes_le q 0 maxLen j (by omega)
    simpa using this
  · have := cutRuneStarts_length_le q 0 maxLen (by omega)
    simpa [← hK] using this

/-- Decomposition of `q.take k` for `1 ≤ k < q.length` with
`q = goQuoteHash s`: the kept part is the opening delimiter followed by a
prefix of the quoted content. -/
theorem take_goQuoteHash (s : List Char) (k : Nat) (h1 : 1 ≤ k)
    (h2 : k < (goQuoteHash s).length) :
    (goQuoteHash s).take k = quoteDelim s :: (quotedContent s).take (k - 1) := by
  rw [goQuoteHash_eq]
  have hlen : (goQuoteHash s).length = (quotedContent s).length + 2 := by
    rw [goQuoteHash_eq]; simp
  obtain ⟨k', rfl⟩ : ∃ k', k = k' + 1 := ⟨k - 1, by omega⟩
  simp only [List.cons_append, List.take_succ_cons, Nat.add_sub_cancel]
  congr 1
  rw [List.take_append_eq_append_take]
  have : k' - (quotedContent s).length = 0 := by
    rw [goQuoteHash_eq] at h2; simp at h2; omega
  simp [this]

/-- C3 (amended): with `maxLen > 0`, `quoteString` truncates iff the quoted
content excluding the two delimiter bytes exceeds `maxLen` BYTES (not
characters); when it truncates it keeps the shortest rune-boundary prefix of
the quoted text whose byte length exceeds `maxLen` (every shorter
rune-boundary prefix has at most `maxLen` bytes), then appends one ellipsis
character and the closing delimiter. -/
theorem claim_C3_amended (s : List Char) (maxLen : Int) (h0 : 0 < maxLen) :
    ((charListBytes (goQuoteHash s) : Int) - 2 ≤ maxLen →
       quoteStringM s maxLen = replaceQuotes (goQuoteHash s)) ∧
    (maxLen < (charListBytes (goQuoteHash s) : Int) - 2 →
       ∃ k, 1 ≤ k ∧ k < (goQuoteHash s).length ∧
         quoteStringM s maxLen
           = replaceQuotes ((goQuoteHash s).take k ++ '…' :: lastByte (goQuoteHash s)) ∧
         maxLen < (charListBytes ((goQuoteHash s).take k) : Int) ∧
         ∀ j, j < k → (charListBytes ((goQuoteHash s).take j) : Int) ≤ maxLen) := by
  constructor
  · intro hle
    exact quoteStringM_no_trunc s maxLen (by omega)
  · intro ht
    obtain ⟨k, hk1, hk2, hcut, hgt, hall, _⟩ := trunc_shape s maxLen h0 ht
    refine ⟨k, hk1, hk2, ?_, hgt, hall⟩
    rw [quoteStringM_trunc s maxLen ⟨h0, by omega⟩, hcut]

/-- C3 witness: concrete instantiation of the amended theorem. -/
theorem claim_C3_witness :
    (0 : Int) < 5 ∧
    (((charListBytes (goQuoteHash (String.data "Hi")) : Int) - 2 ≤ 5 →
       quoteStringM (String.data "Hi") 5 = replaceQuotes (goQuoteHash (String.data "Hi"))) ∧
    ((5 : Int) < (charListBytes (goQuoteHash (String.data "Hi")) : Int) - 2 →
       ∃ k, 1 ≤ k ∧ k < (goQuoteHash (String.data "Hi")).length ∧
         quoteStringM (String.data "Hi") 5
           = replaceQuotes ((goQuoteHash (String.data "Hi")).take k
               ++ '…' :: lastByte (goQuoteHash (String.data "Hi"))) ∧
         (5 : Int) < (charListBytes ((goQuoteHash (String.data "Hi")).take k) : Int) ∧
         ∀ j, j < k →
           (charListBytes ((goQuoteHash (String.data "Hi")).take j) : Int) ≤ 5)) :=
  ⟨by decide, claim_C3_amended (String.data "Hi") 5 (by decide)⟩

/-- C3 counterexample: the string of six two-byte characters `é` has quoted
content of only 6 characters, which does not exceed `maxLen = 10`
characters, yet `quoteString` truncates (the byte length 12 exceeds 10):
the claim's character-based truncation criterion is false on the code. -/
theorem claim_C3_counterexample :
    (quotedContent (String.data "éééééé")).length = 6 ∧
    quoteStringM (String.data "éééééé") 10
      = backquote :: String.data "ééééé" ++ ['…', backquote] ∧
    quoteStringM (String.data "éééééé") 10
      ≠ replaceQuotes (goQuoteHash (String.data "éééééé")) := by
  refine ⟨by decide, by decide, by decide⟩

/-- C4 (confirmed): `quoteString` with `maxLen <= 0` never truncates; with
`maxLen > 0` the visible content (between the delimiters, excluding a
trailing ellipsis) is at most `maxLen` characters and is a whole-rune
prefix of the quoted content (no multi-byte character is ever split: the
cut happens at a rune start of Go's `range` loop). -/
theorem claim_C4 (s : List Char) (maxLen : Int) :
    (maxLen ≤ 0 → quoteStringM s maxLen = replaceQuotes (goQuoteHash s)) ∧
    (0 < maxLen → ∃ c t, quoteStringM s maxLen = backquote :: c ++ t ∧
        (t = [backquote] ∨ t = ['…', backquote]) ∧
        (c.length : Int) ≤ maxLen ∧ c <+: quotedContent s) := by
  constructor
  · intro hle
    exact quoteStringM_no_trunc s maxLen (by omega)
  · intro h0
    by_cases ht : maxLen < (charListBytes (goQuoteHash s) : Int) - 2
    · obtain ⟨k, hk1, hk2, hcut, _, _, hkle⟩ := trunc_shape s maxLen h0 ht
      rw [quoteStringM_trunc s maxLen ⟨h0, by omega⟩, hcut,
        take_goQuoteHash s k hk1 hk2, lastByte_goQuoteHash]
      refine ⟨(quotedContent s).take (k - 1), ['…', backquote], ?_, Or.inr rfl, ?_, ?_⟩
      · unfold quoteDelim
        by_cases hb : canBackquote s
        · rw [if_pos hb]
          rw [show backquote :: (quotedContent s).take (k - 1) ++ '…' :: [backquote]
              = backquote :: ((quotedContent s).take (k - 1) ++ '…' :: [backquote]) by simp]
          rw [replaceQuotes_raw]
        · rw [if_neg hb]
          rw [show ('"' : Char) :: (quotedContent s).take (k - 1) ++ '…' :: [('"' : Char)]
              = ('"' : Char) :: ((quotedContent s).take (k - 1) ++ ['…']) ++ [('"' : Char)] by simp]
          rw [replaceQuotes_esc]
          simp
      · have hlt : ((quotedContent s).take (k - 1)).length ≤ k - 1 := by
          simp [List.length_take]
        push_cast at hlt ⊢
        omega
      · exact List.take_prefix _ _
    · rw [quoteStringM_no_trunc s maxLen (by omega), goQuoteHash_eq]
      have hbytes := charListBytes_goQuoteHash s
      have hclen := length_le_charListBytes (quotedContent s)
      unfold quoteDelim
      by_cases hb : canBackquote s
      · rw [if_pos hb]
        rw [show backquote :: quotedContent s ++ [backquote]
            = backquote :: (quotedContent s ++ [backquote]) by simp]
        rw [replaceQuotes_raw]
        refine ⟨quotedContent s, [backquote], by simp, Or.inl rfl, ?_, List.prefix_refl _⟩
        omega
      · rw [if_neg hb, replaceQuotes_esc]
        refine ⟨quotedContent s, [backquote], by simp, Or.inl rfl, ?_, List.prefix_refl _⟩
        omega

/-- C4 witness: concrete instantiation (truncating case). -/
theorem claim_C4_witness :
    (0 : Int) < 5 ∧
    (∃ c t, quoteStringM (String.data "Hello World") 5 = backquote :: c ++ t ∧
      (t = [backquote] ∨ t = ['…', backquote]) ∧
      (c.length : Int) ≤ 5 ∧ c <+: quotedContent (String.data "Hello World")) :=
  ⟨by decide, (claim_C4 (String.data "Hello World") 5).2 (by decide)⟩

/-- C5 (amended): the quoted output always uses backquote delimiters.  When
the content can be backquoted (no backquote, no control characters other
than tab) it is emitted raw — so a tab is NOT escaped; otherwise the
escaped double-quoted form is produced and its double-quote delimiters are
replaced by backquotes — so a backquote inside such content appears
unescaped between the backquote delimiters. -/
theorem claim_C5_amended (s : List Char) (maxLen : Int) (h : maxLen ≤ 0) :
    (canBackquote s = true → quoteStringM s maxLen = backquote :: s ++ [backquote]) ∧
    (canBackquote s = false →
       quoteStringM s maxLen = backquote :: (s.map escapeChar).flatten ++ [backquote]) := by
  have hnt : quoteStringM s maxLen = replaceQuotes (goQuoteHash s) :=
    quoteStringM_no_trunc s maxLen (by omega)
  constructor
  · intro hb
    rw [hnt]
    unfold goQuoteHash
    rw [if_pos hb]
    rw [show backquote :: s ++ [backquote] = backquote :: (s ++ [backquote]) by simp]
    rw [replaceQuotes_raw]
  · intro hb
    rw [hnt]
    unfold goQuoteHash
    rw [if_neg (by simp [hb])]
    unfold goQuoteEsc
    rw [replaceQuotes_esc]

/-- C5 witness: concrete instantiation (raw backquoted case, literal tab). -/
theorem claim_C5_witness :
    (0 : Int) ≤ 0 ∧ canBackquote (String.data "a\tb") = true ∧
    quoteStringM (String.data "a\tb") 0 = backquote :: String.data "a\tb" ++ [backquote] :=
  ⟨by decide, by decide, (claim_C5_amended (String.data "a\tb") 0 (by decide)).1 (by decide)⟩

/-- C5 counterexample: for content containing a backquote the output is NOT
an escaped double-quoted form — it is backquote-delimited with the content
backquote unescaped inside; and for content with a tab no escape sequence
is applied at all (the tab stays literal). -/
theorem claim_C5_counterexample :
    quoteStringM (String.data "a`b") 0 = [backquote, 'a', backquote, 'b', backquote] ∧
    backquote ∈ ((quoteStringM (String.data "a`b") 0).drop 1).dropLast ∧
    (quoteStringM (String.data "a`b") 0).head? ≠ some '"' ∧
    quoteStringM (String.data "a\tb") 0 = [backquote, 'a', '\t', 'b', backquote] ∧
    '\\' ∉ quoteStringM (String.data "a\tb") 0 := by
  refine ⟨by decide, by decide, by decide, by decide, by decide⟩


/-! ## Byte-level UTF-8 and the structural re-indenter `Indent` -/

/-- UTF-8 encoding of one character, as bytes. -/
def charBytes (c : Char) : List Nat :=
  let v := c.toNat
  if v < 0x80 then [v]
  else if v < 0x800 then [0xC0 + v / 0x40, 0x80 + v % 0x40]
  else if v < 0x10000 then
    [0xE0 + v / 0x1000, 0x80 + v / 0x40 % 0x40, 0x80 + v % 0x40]
  else
    [0xF0 + v / 0x40000, 0x80 + v / 0x1000 % 0x40, 0x80 + v / 0x40 % 0x40, 0x80 + v % 0x40]

/-- UTF-8 encoding of a string, as bytes. -/
def strBytes (s : String) : List Nat := (s.data.map charBytes).flatten

/-- Whether a byte is a UTF-8 continuation byte (`0x80..0xBF`). -/
def isCont (b : Nat) : Bool := 0x80 ≤ b && b ≤ 0xBF

/-- Model of `utf8.DecodeRune`: decodes the first rune of a byte sequence,
returning the rune value and its encoded size.  Invalid or incomplete
sequences yield `(0xFFFD, 1)` (and `(0xFFFD, 0)` for empty input),
following the Go implementation. -/
def decodeRune : List Nat → Nat × Nat
  | [] => (0xFFFD, 0)
  | b0 :: rest =>
    if b0 < 0x80 then (b0, 1)
    else if b0 < 0xC2 then (0xFFFD, 1)
    else if b0 < 0xE0 then
      match rest with
      | b1 :: _ =>
        if isCont b1 then ((b0 - 0xC0) * 0x40 + (b1 - 0x80), 2) else (0xFFFD, 1)
      | [] => (0xFFFD, 1)
    else if b0 < 0xF0 then
      match rest with
      | b1 :: b2 :: _ =>
        let lo := if b0 = 0xE0 then 0xA0 else 0x80
        let hi := if b0 = 0xED then 0x9F else 0xBF
        if lo ≤ b1 && b1 ≤ hi && isCont b2 then
          ((b0 - 0xE0) * 0x1000 + (b1 - 0x80) * 0x40 + (b2 - 0x80), 3)
        else (0xFFFD, 1)
      | _ => (0xFFFD, 1)
    else if b0 < 0xF5 then
      match rest with
      | b1 :: b2 :: b3 :: _ =>
        let lo := if b0 = 0xF0 then 0x90 else 0x80
        let hi := if b0 = 0xF4 then 0x8F else 0xBF
        if lo ≤ b1 && b1 ≤ hi && isCont b2 && isCont b3 then
          ((b0 - 0xF0) * 0x40000 + (b1 - 0x80) * 0x1000 + (b2 - 0x80) * 0x40 + (b3 - 0x80), 4)
        else (0xFFFD, 1)
      | _ => (0xFFFD, 1)
    else (0xFFFD, 1)

/-- Model of `utf8.Valid` (fuel-driven; `fuel ≥ length` always suffices
since each decode step consumes at least one byte). -/
def utf8ValidAux : Nat → List Nat → Bool
  | _, [] => true
  | 0, _ :: _ => false
  | fuel + 1, l@(_ :: _) =>
    let (r, n) := decodeRune l
    if r = 0xFFFD ∧ n = 1 then false else utf8ValidAux fuel (l.drop n)

/-- Model of `utf8.Valid`. -/
def utf8ValidBytes (l : List Nat) : Bool := utf8ValidAux l.length l

/-- Decode a byte sequence into characters (used only on valid input). -/
def utf8CharsAux : Nat → List Nat → List Char
  | _, [] => []
  | 0, _ :: _ => []
  | fuel + 1, l@(_ :: _) =>
    let (r, n) := decodeRune l
    Char.ofNat r :: utf8CharsAux fuel (l.drop (max n 1))

/-- Decode a byte sequence into characters. -/
def utf8Chars (l : List Nat) : List Char := utf8CharsAux l.length l

/-- `source[a:b]` on a byte slice. -/
def byteSub (l : List Nat) (a b : Nat) : List Nat := (l.take b).drop a

/-- The scanning loop of `Indent` (indent.go).  Parameters mirror the Go
locals: `state` (0 = default, 1 = raw string, 2 = escaped string), position
`i`, flush cursor `unwritten`, current `newLineIndent` `nli`, accumulated
`result`.  Each iteration advances `i` by at least one byte, so the fuel
`src.length + 1` used by `IndentM` can never run out; on fuel exhaustion
and at the end of input alike, the bytes from `unwritten` on are appended
verbatim (the final flush of the Go code). -/
def indentLoop (src ind pre : List Nat) :
    Nat → Nat → Nat → Nat → List Nat → List Nat → List Nat
  | 0, _, _, unwritten, _, result => result ++ src.drop unwritten
  | fuel + 1, state, i, unwritten, nli, result =>
    if i < src.length then
      let r := (decodeRune (src.drop i)).1
      let rSize := (decodeRune (src.drop i)).2
      if r = 0xFFFD then result ++ src.drop unwritten
      else
        let result := if i = 0 then result ++ pre else result
        if state = 0 then
          if r = 58 then
            indentLoop src ind pre fuel 0 (i + rSize) (i + rSize) nli
              (result ++ byteSub src unwritten (i + rSize) ++ [32])
          else if r = 59 then
            indentLoop src ind pre fuel 0 (i + rSize) (i + 1) nli
              (result ++ byteSub src unwritten i ++ nli)
          else if r = 123 then
            if i + 1 < src.length ∧ src.getD (i + 1) 0 = 125 then
              indentLoop src ind pre fuel 0 (i + 1 + rSize) (i + rSize + 1) nli
                (result ++ byteSub src unwritten (i + rSize) ++ [125])
            else
              indentLoop src ind pre fuel 0 (i + rSize) (i + rSize) (nli ++ ind)
                (result ++ byteSub src unwritten (i + rSize) ++ (nli ++ ind))
          else if r = 125 then
            let nli' := if ind.length ≤ nli.length then nli.take (nli.length - ind.length) else nli
            indentLoop src ind pre fuel 0 (i + rSize) (i + 1) nli'
              (result ++ byteSub src unwritten i ++ nli' ++ [125])
          else if r = 96 then
            indentLoop src ind pre fuel 1 (i + rSize) unwritten nli result
          else if r = 34 then
            indentLoop src ind pre fuel 2 (i + rSize) unwritten nli result
          else
            indentLoop src ind pre fuel 0 (i + rSize) unwritten nli result
        else if state = 1 then
          if r = 96 then
            indentLoop src ind pre fuel 0 (i + rSize) (i + rSize) nli
              (result ++ byteSub src unwritten (i + rSize))
          else indentLoop src ind pre fuel 1 (i + rSize) unwritten nli result
        else
          if r = 34 then
            indentLoop src ind pre fuel 0 (i + rSize) (i + rSize) nli
              (result ++ byteSub src unwritten (i + rSize))
          else if r = 92 then
            if i + 1 < src.length ∧ (src.getD (i + 1) 0 = 92 ∨ src.getD (i + 1) 0 = 34) then
              indentLoop src ind pre fuel 2 (i + 2) unwritten nli result
            else
              indentLoop src ind pre fuel 2 (i + rSize) unwritten nli result
          else indentLoop src ind pre fuel 2 (i + rSize) unwritten nli result
    else result ++ src.drop unwritten

/-- Model of `Indent(source, indent, linePrefix...)` (indent.go). -/
def IndentM (source indent : List Nat) (linePrefix : List (List Nat)) : List Nat :=
  indentLoop source indent linePrefix.flatten (source.length + 1) 0 0 0
    (10 :: linePrefix.flatten) []

theorem decodeRune_size_le (l : List Nat) : (decodeRune l).2 ≤ l.length := by
  rcases l with _ | ⟨b0, _ | ⟨b1, _ | ⟨b2, _ | ⟨b3, rest⟩⟩⟩⟩ <;>
    · simp only [decodeRune]
      try split_ifs <;> (try simp_all [isCont])
      all_goals (try simp)
      all_goals omega

theorem decodeRune_size_pos (b0 : Nat) (rest : List Nat) :
    1 ≤ (decodeRune (b0 :: rest)).2 := by
  rcases rest with _ | ⟨b1, _ | ⟨b2, _ | ⟨b3, rest⟩⟩⟩ <;>
    · simp only [decodeRune]
      try split_ifs <;> (try simp_all [isCont])
      all_goals (try simp)
      all_goals omega

theorem decodeRune_ascii (l : List Nat) :
    0x80 ≤ (decodeRune l).1 ∨ (decodeRune l).2 = 1 := by
  rcases l with _ | ⟨b0, _ | ⟨b1, _ | ⟨b2, _ | ⟨b3, rest⟩⟩⟩⟩ <;>
    · simp only [decodeRune]
      try split_ifs <;> (try simp_all [isCont])
      all_goals (try simp)
      all_goals omega

theorem getD_append_self (l₁ l₂ : List Nat) (a d : Nat) :
    (l₁ ++ a :: l₂).getD l₁.length d = a := by
  induction l₁ with
  | nil => rfl
  | cons x xs ih => simpa using ih

theorem getD_drop (l : List Nat) (n d : Nat) :
    (l.drop n).getD 0 d = l.getD n d := by
  induction n generalizing l with
  | zero => rfl
  | succ n ih =>
    cases l with
    | nil => rfl
    | cons x xs => simpa using ih xs

theorem getD_mem (l : List Nat) (j d : Nat) (h : j < l.length) : l.getD j d ∈ l := by
  induction l generalizing j with
  | nil => simp at h
  | cons x xs ih =>
    cases j with
    | zero => simp [List.getD_cons_zero]
    | succ j =>
      rw [List.getD_cons_succ]
      exact List.mem_cons_of_mem x (ih j (by simpa using h))

theorem decodeRune_96 (rest : List Nat) : decodeRune (96 :: rest) = (96, 1) := rfl

/-- A decoded rune below `0x80` is the leading byte itself (no overlong
encodings: multi-byte decodes yield values at least `0x80`, and failures
yield `0xFFFD`). -/
theorem decodeRune_head (l : List Nat) :
    0x80 ≤ (decodeRune l).1 ∨ (decodeRune l).1 = l.getD 0 0 := by
  rcases l with _ | ⟨b0, _ | ⟨b1, _ | ⟨b2, _ | ⟨b3, rest⟩⟩⟩⟩ <;>
    · simp only [decodeRune]
      try split_ifs <;> (try simp_all [isCont])
      all_goals (try simp)
      all_goals omega

set_option maxHeartbeats 2000000 in
/-- A decode can never span a `0xFF` byte: `0xFF` is invalid as a leading
byte and as a continuation byte, so the decode either fails or stays
within the bytes before the `0xFF`. -/
theorem decodeRune_stop255 (q t : List Nat) :
    (decodeRune (q ++ 255 :: t)).1 = 0xFFFD ∨
    (decodeRune (q ++ 255 :: t)).2 ≤ q.length := by
  rcases q with _ | ⟨a, _ | ⟨b, _ | ⟨c, _ | ⟨d, q'⟩⟩⟩⟩ <;>
    rcases t with _ | ⟨y, _ | ⟨z, t'⟩⟩ <;>
      · simp only [List.cons_append, List.nil_append, decodeRune]
        try split_ifs <;> (try simp_all [isCont])
        all_goals (try simp)
        all_goals omega

set_option maxHeartbeats 2000000 in
/-- Termination of the `Indent` loop: every iteration advances the scan
position by at least one byte, so any fuel covering the remaining length
yields the same result — the fuel embedding is saturated. -/
theorem indentLoop_fuel_eq (src ind pre : List Nat) :
    ∀ f₁ f₂ state i unwritten nli result,
      src.length ≤ i + f₁ → src.length ≤ i + f₂ →
      indentLoop src ind pre f₁ state i unwritten nli result =
        indentLoop src ind pre f₂ state i unwritten nli result := by
  intro f₁
  induction f₁ with
  | zero =>
    intro f₂ state i unwritten nli result h1 h2
    cases f₂ with
    | zero => rfl
    | succ g =>
      rw [indentLoop, indentLoop, if_neg (by omega : ¬ i < src.length)]
  | succ f ih =>
    intro f₂ state i unwritten nli result h1 h2
    by_cases hi : i < src.length
    · cases f₂ with
      | zero => omega
      | succ g =>
        have hne : src.drop i ≠ [] := by
          apply List.ne_nil_of_length_pos
          simp only [List.length_drop]
          omega
        obtain ⟨b, rest, hbr⟩ := List.exists_cons_of_ne_nil hne
        have hpos : 1 ≤ (decodeRune (src.drop i)).2 := by
          rw [hbr]; exact decodeRune_size_pos b rest
        have hascii := decodeRune_ascii (src.drop i)
        rw [indentLoop, if_pos hi]
        rw [indentLoop, if_pos hi]
        dsimp only
        set r := (decodeRune (src.drop i)).1 with hr
        set sz := (decodeRune (src.drop i)).2 with hsz
        split_ifs <;> first | rfl | (apply ih <;> omega)
    · rw [indentLoop, if_neg hi]
      cases f₂ with
      | zero => rw [indentLoop]
      | succ g => rw [indentLoop, if_neg hi]

set_option maxHeartbeats 2000000 in
/-- Everything from a `0xFF` byte on is emitted verbatim at the end of the
output: the scan cannot move past it (no decode spans it, and the byte
special-cases check for `\x7d`, `\` and `"` only), the flush cursor never
passes the scan position, and every exit path appends the bytes from the
flush cursor on unchanged. -/
theorem indentLoop_after255 (p t ind pre : List Nat) :
    ∀ fuel state i unwritten nli result, unwritten ≤ i → i ≤ p.length →
      ∃ out, indentLoop (p ++ 255 :: t) ind pre fuel state i unwritten nli result
        = out ++ 255 :: t := by
  intro fuel
  induction fuel with
  | zero =>
    intro state i unwritten nli result hui hin
    refine ⟨result ++ p.drop unwritten, ?_⟩
    rw [indentLoop, List.drop_append_of_le_length (hui.trans hin), ← List.append_assoc]
  | succ fuel ih =>
    intro state i unwritten nli result hui hin
    have hlt : i < (p ++ 255 :: t).length := by
      simp only [List.length_append, List.length_cons]
      omega
    have hd : (p ++ 255 :: t).drop i = p.drop i ++ 255 :: t :=
      List.drop_append_of_le_length hin
    have hstop := decodeRune_stop255 (p.drop i) t
    rw [← hd] at hstop
    have hlen2 : (p.drop i).length = p.length - i := by simp
    rw [hlen2] at hstop
    have hne : (p ++ 255 :: t).drop i ≠ [] := by
      apply List.ne_nil_of_length_pos
      simp only [List.length_drop]
      omega
    obtain ⟨b, rest, hbr⟩ := List.exists_cons_of_ne_nil hne
    have hpos : 1 ≤ (decodeRune ((p ++ 255 :: t).drop i)).2 := by
      rw [hbr]; exact decodeRune_size_pos b rest
    have hascii := decodeRune_ascii ((p ++ 255 :: t).drop i)
    have h255 : (p ++ 255 :: t).getD p.length 0 = 255 := getD_append_self p t 255 0
    have hne125 : (p ++ 255 :: t).getD (i + 1) 0 = 125 → p.length ≠ i + 1 :=
      fun hb he => by rw [he] at h255; omega
    have hne92 : (p ++ 255 :: t).getD (i + 1) 0 = 92 ∨
        (p ++ 255 :: t).getD (i + 1) 0 = 34 → p.length ≠ i + 1 :=
      fun hb he => by rw [he] at h255; omega
    have hflush : ∀ res : List Nat,
        ∃ out, res ++ (p ++ 255 :: t).drop unwritten = out ++ 255 :: t := fun res =>
      ⟨res ++ p.drop unwritten, by
        rw [List.drop_append_of_le_length (hui.trans hin), ← List.append_assoc]⟩
    rw [indentLoop, if_pos hlt]
    dsimp only
    split_ifs <;> first | exact hflush _ | (apply ih <;> omega)

/-- Inside a raw string (state 1) with no closing backquote ahead, the
loop never flushes again: it returns the accumulated output followed by
the bytes from the flush cursor on, verbatim (an unterminated raw string
passes through unchanged). -/
theorem indentLoop_rawString (src ind pre : List Nat) :
    ∀ fuel i unwritten nli result, 1 ≤ i →
      (∀ j, i ≤ j → j < src.length → src.getD j 0 ≠ 96) →
      indentLoop src ind pre fuel 1 i unwritten nli result =
        result ++ src.drop unwritten := by
  intro fuel
  induction fuel with
  | zero => intro i unwritten nli result _ _; rw [indentLoop]
  | succ fuel ih =>
    intro i unwritten nli result h1 hno
    by_cases hi : i < src.length
    · by_cases hF : (decodeRune (src.drop i)).1 = 0xFFFD
      · rw [indentLoop, if_pos hi]
        dsimp only
        rw [if_pos hF]
      · have hr96 : ¬ (decodeRune (src.drop i)).1 = 96 := by
          have hh := decodeRune_head (src.drop i)
          rw [getD_drop] at hh
          have := hno i (le_refl i) hi
          omega
        have hne : src.drop i ≠ [] := by
          apply List.ne_nil_of_length_pos
          simp only [List.length_drop]
          omega
        obtain ⟨b, rest, hbr⟩ := List.exists_cons_of_ne_nil hne
        have hpos : 1 ≤ (decodeRune (src.drop i)).2 := by
          rw [hbr]; exact decodeRune_size_pos b rest
        rw [indentLoop, if_pos hi]
        dsimp only
        rw [if_neg hF, if_neg (by omega : ¬ i = 0),
          if_neg (by decide : ¬ (1 : Nat) = 0), if_pos rfl, if_neg hr96]
        exact ih (i + (decodeRune (src.drop i)).2) unwritten nli result (by omega)
          (fun j hj hjl => hno j (by omega) hjl)
    · rw [indentLoop, if_neg hi]

/-- C8 (confirmed): `Indent("\x7bX:1;Y:2\x7d", "  ")` produces the
indented two-line body: `:` is kept and followed by one space, `;` becomes
a newline plus the current indent, `\x7b` grows the indent, and `\x7d`
shrinks it and follows a newline plus the shrunk indent. -/
theorem claim_C8 :
    IndentM (strBytes "\x7bX:1;Y:2\x7d") (strBytes "  ") []
      = strBytes "\x7b\n  X: 1\n  Y: 2\n\x7d" := by
  decide

/-- C9 (confirmed): `Indent` is total on arbitrary byte sequences — the
fuel budget `length + 1` it is run with saturates: any larger budget gives
the same output (first conjunct, the termination argument: every iteration
advances at least one byte) — and the output always ends with the
unconsumed suffix of the input unchanged: for EVERY input containing an
undecodable byte (`0xFF` never occurs in valid UTF-8, as leading or
continuation byte), everything from that byte on is appended verbatim
(second conjunct: the scan stops at the first decode failure at or before
it and flushes the rest raw), and EVERY unterminated raw string is
appended verbatim to the end of the output (third conjunct); concretely,
`\x7b` then an invalid byte flushes the processed `\x7b` then the raw
remainder, and an unterminated backquoted string passes through
unchanged. -/
theorem claim_C9 :
    (∀ (src ind : List Nat) (pre : List (List Nat)) (fuel : Nat),
        src.length + 1 ≤ fuel →
        indentLoop src ind pre.flatten fuel 0 0 0 (10 :: pre.flatten) [] =
          IndentM src ind pre) ∧
    (∀ (p t ind : List Nat) (pre : List (List Nat)),
        ∃ out, IndentM (p ++ 255 :: t) ind pre = out ++ 255 :: t) ∧
    (∀ (t ind : List Nat) (pre : List (List Nat)), (∀ b ∈ t, b ≠ 96) →
        ∃ out, IndentM (96 :: t) ind pre = out ++ 96 :: t) ∧
    IndentM [123, 255, 65] (strBytes "  ") [] = [123, 10, 32, 32] ++ [255, 65] ∧
    IndentM [96, 97, 255] (strBytes "  ") [] = [96, 97, 255] := by
  refine ⟨?_, ?_, ?_, by decide, by decide⟩
  · intro src ind pre fuel hf
    simp only [IndentM]
    exact indentLoop_fuel_eq src ind pre.flatten fuel (src.length + 1) 0 0 0
      (10 :: pre.flatten) [] (by omega) (by omega)
  · intro p t ind pre
    simp only [IndentM]
    exact indentLoop_after255 p t ind pre.flatten ((p ++ 255 :: t).length + 1) 0 0 0
      (10 :: pre.flatten) [] (le_refl 0) (Nat.zero_le _)
  · intro t ind pre ht
    have hno96 : ∀ j, 1 ≤ j → j < (96 :: t).length → (96 :: t).getD j 0 ≠ 96 := by
      intro j h1 h2
      cases j with
      | zero => omega
      | succ j =>
        rw [List.getD_cons_succ]
        exact ht _ (getD_mem t j 0 (by simpa using h2))
    have hstep : IndentM (96 :: t) ind pre =
        indentLoop (96 :: t) ind pre.flatten (t.length + 1) 1 1 0
          (10 :: pre.flatten) pre.flatten := by
      simp only [IndentM]
      rw [indentLoop]
      rw [if_pos (by simp : (0:Nat) < (96 :: t).length)]
      dsimp only
      rw [List.drop_zero, decodeRune_96]
      norm_num
    refine ⟨pre.flatten, ?_⟩
    rw [hstep, indentLoop_rawString (96 :: t) ind pre.flatten (t.length + 1) 1 0
      (10 :: pre.flatten) pre.flatten (le_refl 1) hno96, List.drop_zero]

/-! ## The value model and the recursive renderer `fprint` -/

/-- Model of a Go runtime value as seen through `reflect`:
`vnil` is a nil pointer/interface (and also stands for nil slices and maps,
which print the same `nil`); `ptr`/`slice`/`mapv` carry the reference
identity (`v.Pointer()`) used by the cycle tracker, with their targets or
contents held in the heap; `iface` is a non-nil interface wrapping its
dynamic value; `bytes`/`runes` are `[]byte`/`[]rune` slices with inline
content; `strct` fields are `(name, anonymous, exported, value)`.
Values implementing `Printable`/`PrintableWithResult`/`Stringer`,
`Nullable`, `error` or `context.Context`, and the remaining numeric kinds,
are outside this model: for them the corresponding dispatch steps of
`fprint` are no-ops. -/
inductive Val where
  | vnil
  | vbool (b : Bool)
  | vint (i : Int)
  | vstr (s : String)
  | ptr (a : Nat)
  | iface (v : Val)
  | arr (elems : List Val)
  | slice (a : Nat)
  | bytes (a : Nat) (bs : List Nat)
  | runes (a : Nat) (rs : List Int)
  | mapv (a : Nat)
  | strct (name : String) (fields : List (String × Bool × Bool × Val))

mutual
/-- Structural equality of modelled values (Go `==` on the reflected
values; used to model `v.MapIndex(key)`). -/
def vbeq : Val → Val → Bool
  | .vnil, .vnil => true
  | .vbool a, .vbool b => a == b
  | .vint a, .vint b => a == b
  | .vstr a, .vstr b => a == b
  | .ptr a, .ptr b => a == b
  | .iface a, .iface b => vbeq a b
  | .arr xs, .arr ys => vlbeq xs ys
  | .slice a, .slice b => a == b
  | .bytes a bs, .bytes a' bs' => a == a' && bs == bs'
  | .runes a rs, .runes a' rs' => a == a' && rs == rs'
  | .mapv a, .mapv b => a == b
  | .strct n fs, .strct n' gs => n == n' && vfbeq fs gs
  | _, _ => false
/-- Structural equality on value lists. -/
def vlbeq : List Val → List Val → Bool
  | [], [] => true
  | x :: xs, y :: ys => vbeq x y && vlbeq xs ys
  | _, _ => false
/-- Structural equality on struct field lists. -/
def vfbeq : List (String × Bool × Bool × Val) → List (String × Bool × Bool × Val) → Bool
  | [], [] => true
  | (fn, fa, fe, fv) :: fs, (gn, ga, ge, gv) :: gs =>
      fn == gn && fa == ga && fe == ge && vbeq fv gv && vfbeq fs gs
  | _, _ => false
end

mutual
theorem vbeq_refl : ∀ v, vbeq v v = true
  | .vnil => rfl
  | .vbool a => by simp [vbeq]
  | .vint a => by simp [vbeq]
  | .vstr a => by simp [vbeq]
  | .ptr a => by simp [vbeq]
  | .iface a => by simpa [vbeq] using vbeq_refl a
  | .arr xs => by simpa [vbeq] using vlbeq_refl xs
  | .slice a => by simp [vbeq]
  | .bytes a bs => by simp [vbeq]
  | .runes a rs => by simp [vbeq]
  | .mapv a => by simp [vbeq]
  | .strct n fs => by simpa [vbeq] using vfbeq_refl fs
theorem vlbeq_refl : ∀ l, vlbeq l l = true
  | [] => rfl
  | x :: xs => by simp [vlbeq, vbeq_refl x, vlbeq_refl xs]
theorem vfbeq_refl : ∀ l, vfbeq l l = true
  | [] => rfl
  | (fn, fa, fe, fv) :: fs => by simp [vfbeq, vbeq_refl fv, vfbeq_refl fs]
end

/-- The static kind of a map's key type, as dispatched on by
`sortReflectValues` (string, integer, boolean, byte-slice comparators;
everything else falls back to comparing rendered text). -/
inductive KKind where
  | kstr | kint | kbool | kbytes | kother
deriving DecidableEq

/-- The heap: pointer targets, slice backing contents, and map contents
`(type name, key kind, key-value pairs in iteration order)`, indexed by
reference identity. -/
structure Heap where
  ptrv : Nat → Val
  slicev : Nat → List Val
  mapv : Nat → String × KKind × List (Val × Val)

/-- `reflect.Value.String()` used by the string comparator. -/
def asStr : Val → String
  | .vstr s => s
  | _ => ""

/-- `reflect.Value.Int()` used by the integer comparator. -/
def asInt : Val → Int
  | .vint i => i
  | _ => 0

/-- `reflect.Value.Bool()` used by the boolean comparator. -/
def asBool : Val → Bool
  | .vbool b => b
  | _ => false

/-- `reflect.Value.Bytes()` used by the byte-slice comparator. -/
def asBytes : Val → List Nat
  | .bytes _ bs => bs
  | _ => []

/-- `bytes.Compare(x, y) < 0`: lexicographic byte order. -/
def natLex : List Nat → List Nat → Bool
  | [], [] => false
  | [], _ :: _ => true
  | _ :: _, [] => false
  | x :: xs, y :: ys => if x < y then true else if y < x then false else natLex xs ys

/-- Code points of a string (Go compares strings bytewise; on valid UTF-8,
bytewise order coincides with code-point lexicographic order). -/
def strCodes (s : String) : List Nat := s.data.map Char.toNat

/-- The `less` comparator of `sortReflectValues`, per key kind; `rText`
renders a key to text for the fallback comparator (sharing the cycle
tracker of the enclosing render). -/
def keyLess (rText : Val → Option String) (kind : KKind) (x y : Val) : Bool :=
  match kind with
  | .kstr => natLex (strCodes (asStr x)) (strCodes (asStr y))
  | .kint => decide (asInt x < asInt y)
  | .kbool => !asBool x && asBool y
  | .kbytes => natLex (asBytes x) (asBytes y)
  | .kother => natLex (strCodes ((rText x).getD "")) (strCodes ((rText y).getD ""))

/-- Insert into a sorted list (model of the sorting contract of
`sort.Slice`: the result is a permutation of the input ordered by the
comparator; `sort.Slice` is unspecified on ties, and for the tie-free maps
of the determinism theorem every correct sort yields this same result). -/
def orderedInsert (less : α → α → Bool) (x : α) : List α → List α
  | [] => [x]
  | h :: t => if less x h then x :: h :: t else h :: orderedInsert less x t

/-- Left-to-right insertion sort: elements are inserted in input order, so
equal-comparing elements keep their input order (stability, matching the
insertion sort `sort.Slice` uses on small slices). -/
def sortSliceAux (less : α → α → Bool) : List α → List α → List α
  | acc, [] => acc
  | acc, x :: rest => sortSliceAux less (orderedInsert less x acc) rest

/-- Sorting model for `sort.Slice(vals, less)`. -/
def sortSlice (less : α → α → Bool) (l : List α) : List α :=
  sortSliceAux less [] l

/-- Model of `v.MapIndex(key)`: the value of the unique pair whose key
equals `key` (map keys are distinct). -/
def mapLookup (pairs : List (Val × Val)) (k : Val) : Val :=
  ((pairs.find? fun p => vbeq p.1 k).map Prod.snd).getD Val.vnil

/-- `utf8.ValidRune` (valid code point, surrogates excluded). -/
def validRune (r : Int) : Bool :=
  (0 ≤ r && r < 0xD800) || (0xDFFF < r && r ≤ 0x10FFFF)

/-- Rune to character (used under a `validRune` guard). -/
def intChar (r : Int) : Char := Char.ofNat r.toNat

/-- The dereference loop of `fprint`:
`for (v.Kind() == reflect.Pointer || v.Kind() == reflect.Interface) && !v.IsNil() \x7b v = v.Elem() \x7d`.
It strips pointer and interface layers WITHOUT consulting the cycle
tracker; a cycle made only of pointers/interfaces therefore loops forever,
which the fuel models as `none`. -/
def stripDeref (H : Heap) : Nat → Val → Option Val
  | 0, _ => none
  | fuel + 1, .ptr a => stripDeref H fuel (H.ptrv a)
  | fuel + 1, .iface u => stripDeref H fuel u
  | _ + 1, v => some v

/-- Comma-joined renders of array elements. -/
def commaItems (render : Val → Option String) : List Val → Bool → Option String
  | [], _ => some ""
  | e :: rest, isFirst =>
    match render e with
    | none => none
    | some r =>
      match commaItems render rest false with
      | none => none
      | some tail => some ((if isFirst then "" else ",") ++ r ++ tail)

/-- Comma-joined renders of slice elements with the `MaxSliceLength`
ellipsis truncation (the ellipsis replaces the element at the cut index
and iteration stops). -/
def sliceItems (render : Val → Option String) (maxSlice : Int) :
    List Val → Nat → Option String
  | [], _ => some ""
  | e :: rest, i =>
    if 0 < maxSlice ∧ maxSlice ≤ (i : Int) then
      some ((if 0 < i then "," else "") ++ "…")
    else
      match render e with
      | none => none
      | some r =>
        match sliceItems render maxSlice rest (i + 1) with
        | none => none
        | some tail => some ((if 0 < i then "," else "") ++ r ++ tail)

/-- Semicolon-joined `key:value` renders over the sorted keys, each value
obtained by map lookup. -/
def mapItems (render : Val → Option String) (pairs : List (Val × Val)) :
    List Val → Bool → Option String
  | [], _ => some ""
  | k :: rest, isFirst =>
    match render k with
    | none => none
    | some kr =>
      match render (mapLookup pairs k) with
      | none => none
      | some vr =>
        match mapItems render pairs rest false with
        | none => none
        | some tail => some ((if isFirst then "" else ";") ++ kr ++ ":" ++ vr ++ tail)

/-- Semicolon-joined `Field:value` renders over exported struct fields
(anonymous fields print without the name prefix, unexported fields are
skipped). -/
def structItems (render : Val → Option String) :
    List (String × Bool × Bool × Val) → Bool → Option String
  | [], _ => some ""
  | (fnm, anon, expo, fv) :: rest, isFirst =>
    if !expo then structItems render rest isFirst
    else
      match render fv with
      | none => none
      | some r =>
        match structItems render rest false with
        | none => none
        | some tail =>
          some ((if isFirst then "" else ";") ++ (if anon then "" else fnm ++ ":") ++ r ++ tail)

/-- The body of `Printer.fprint` after the entry pointer check: dereference
loop, then dispatch on the concrete kind.  `render` performs the recursive
calls (at one fuel less); `strip` is the dereference loop.  Slices, byte
and rune slices and maps consult and extend the cycle tracker here, scoped
to their own subtree (the Go `defer delete` runs when this call returns). -/
def fprintCore (cfg : Cfg) (H : Heap) (render : List Nat → Val → Option String)
    (strip : Val → Option Val) (visited : List Nat) (v : Val) : Option String :=
  match strip v with
  | none => none
  | some v' =>
    match v' with
    | .vnil => some "nil"
    | .ptr _ => none
    | .iface _ => none
    | .vstr s => some (String.mk (quoteStringM s.data cfg.maxStringLength))
    | .vbool b => some (if b then "true" else "false")
    | .vint i => some (toString i)
    | .arr elems =>
        match commaItems (render visited) elems true with
        | none => none
        | some body => some ("[" ++ body ++ "]")
    | .slice a =>
        if a ∈ visited then some CircularRef
        else
          match sliceItems (render (a :: visited)) cfg.maxSliceLength (H.slicev a) 0 with
          | none => none
          | some body => some ("[" ++ body ++ "]")
    | .bytes a bs =>
        if a ∈ visited then some CircularRef
        else if !bs.contains 0 && utf8ValidBytes bs then
          some (String.mk (quoteStringM (utf8Chars bs) cfg.maxStringLength))
        else if 0 < cfg.maxSliceLength ∧ cfg.maxSliceLength < (bs.length : Int) then
          some ("[]byte\x7blen(" ++ toString bs.length ++ ")\x7d")
        else
          match sliceItems (render (a :: visited)) cfg.maxSliceLength
              (bs.map fun b => Val.vint b) 0 with
          | none => none
          | some body => some ("[" ++ body ++ "]")
    | .runes a rs =>
        if a ∈ visited then some CircularRef
        else if rs.all fun r => 0 < r && validRune r then
          some (String.mk (quoteStringM (rs.map intChar) cfg.maxStringLength))
        else
          match sliceItems (render (a :: visited)) cfg.maxSliceLength
              (rs.map fun r => Val.vint r) 0 with
          | none => none
          | some body => some ("[" ++ body ++ "]")
    | .mapv a =>
        if a ∈ visited then some CircularRef
        else
          let md := H.mapv a
          let keys := sortSlice (keyLess (render (a :: visited)) md.2.1) (md.2.2.map Prod.fst)
          match mapItems (render (a :: visited)) md.2.2 keys true with
          | none => none
          | some body => some (md.1 ++ "\x7b" ++ body ++ "\x7d")
    | .strct nm fields =>
        match structItems (render visited) fields true with
        | none => none
        | some body => some (nm ++ "\x7b" ++ body ++ "\x7d")

/-- Model of `Printer.fprint(w, v, ptrs)`: the entry check visits a value
of pointer kind (writing `CIRCULAR_REF` if its identity is already on the
active path), then the body renders the dereferenced value.  The cycle
tracker is passed extended to the calls inside the subtree and is
unchanged outside — the functional counterpart of Go's
`ptrs.visit(ptr)` / `defer delete(ptrs, ptr)`.  `none` models
non-termination (fuel exhaustion at every fuel). -/
def fprintF (cfg : Cfg) (H : Heap) : Nat → List Nat → Val → Option String
  | 0, _, _ => none
  | fuel + 1, visited, v =>
    match v with
    | .ptr a =>
      if a ∈ visited then some CircularRef
      else
        fprintCore cfg H (fun vis u => fprintF cfg H fuel vis u)
          (fun u => stripDeref H (fuel + 1) u) (a :: visited) (.ptr a)
    | w =>
      fprintCore cfg H (fun vis u => fprintF cfg H fuel vis u)
        (fun u => stripDeref H (fuel + 1) u) visited w

/-- Model of `Printer.fprintIndent(w, value, indent)`: a nil value prints
the concatenated line prefix (`indent[1:]`) when more than one indent
argument is given, then `nil`; without indent arguments the value is
rendered compactly; otherwise the compact render is re-indented by
`Indent` with `indent[0]` as the unit and `indent[1:]` as line prefix.
The output is modelled at the byte level. -/
def fprintIndent (cfg : Cfg) (H : Heap) (fuel : Nat) (value : Option Val)
    (indent : List String) : Option (List Nat) :=
  match value with
  | none =>
    some (strBytes ((if 1 < indent.length then String.join (indent.drop 1) else "") ++ "nil"))
  | some v =>
    match indent with
    | [] => (fprintF cfg H fuel [] v).map strBytes
    | i0 :: rest =>
      (fprintF cfg H fuel [] v).map fun s =>
        IndentM (strBytes s) (strBytes i0) (rest.map strBytes)

/-- The `DefaultPrinter` configuration (config source file). -/
def defaultPrinter : Cfg := ⟨200, 2000, 20⟩

/-- A heap with no interesting content. -/
def emptyHeap : Heap := ⟨fun _ => Val.vnil, fun _ => [], fun _ => ("", KKind.kstr, [])⟩

/-- The heap of the failing input for C1:
`type S struct \x7b X any \x7d; s := &S\x7b\x7d; s.X = s` — address 1 holds the
struct and its `any` field wraps the pointer back to address 1 in an
interface. -/
def selfIfaceHeap : Heap :=
  ⟨fun a => if a = 1 then Val.strct "S" [("X", false, true, Val.iface (Val.ptr 1))] else Val.vnil,
   fun _ => [], fun _ => ("", KKind.kstr, [])⟩

theorem selfIfaceHeap_ptrv :
    selfIfaceHeap.ptrv 1 = Val.strct "S" [("X", false, true, Val.iface (Val.ptr 1))] := rfl

theorem stripDeref_strct (H : Heap) (n : Nat) (nm : String)
    (fs : List (String × Bool × Bool × Val)) :
    stripDeref H (n + 1) (Val.strct nm fs) = some (Val.strct nm fs) := rfl

theorem selfIface_inner_none :
    ∀ n, fprintF defaultPrinter selfIfaceHeap n [1] (Val.iface (Val.ptr 1)) = none := by
  intro n
  induction n with
  | zero => rfl
  | succ n ih =>
    rw [fprintF]
    all_goals try (intro _ h; exact Val.noConfusion h)
    cases n with
    | zero => rfl
    | succ k =>
      cases k with
      | zero => rfl
      | succ j =>
        simp only [fprintCore, stripDeref, selfIfaceHeap_ptrv, stripDeref_strct,
          structItems, ih]
        rfl

/-- C1 (code_bug): on the failing input the renderer never terminates: the
dereference loop strips the interface and the pointer inside it without
consulting the cycle tracker, so `fprint` recurses forever on the `X`
field (the model returns `none` at every fuel). -/
theorem claim_C1_bug :
    ∀ fuel, fprintF defaultPrinter selfIfaceHeap fuel [] (Val.ptr 1) = none := by
  intro fuel
  match fuel with
  | 0 => rfl
  | 1 => rfl
  | Nat.succ (Nat.succ m) =>
    rw [fprintF]
    all_goals try (intro _ h; exact Val.noConfusion h)
    have h1 : (1 : Nat) ∉ ([] : List Nat) := by simp
    simp only [if_neg h1, fprintCore, stripDeref, selfIfaceHeap_ptrv, stripDeref_strct,
      structItems, selfIface_inner_none]
    rfl

/-- C7 (confirmed): a non-nil byte slice of 21 bytes whose content is not
valid text (zero byte or invalid UTF-8) renders with `MaxSliceLength = 20`
as exactly `[]byte\x7blen(21)\x7d`. -/
theorem claim_C7 (cfg : Cfg) (H : Heap) (a : Nat) (bs : List Nat) (fuel : Nat)
    (hms : cfg.maxSliceLength = 20) (hlen : bs.length = 21)
    (hinv : bs.contains 0 = true ∨ utf8ValidBytes bs = false) :
    fprintF cfg H (fuel + 1) [] (Val.bytes a bs)
      = some ("[]byte\x7blen(21)\x7d") := by
  have hval : (!bs.contains 0 && utf8ValidBytes bs) = false := by
    rcases hinv with h | h
    · rw [h]; rfl
    · rw [h]; simp
  have hmem : a ∉ ([] : List Nat) := by simp
  rw [fprintF]
  all_goals try (intro _ h; exact Val.noConfusion h)
  simp only [fprintCore, stripDeref]
  simp only [hval, if_neg hmem, hms, hlen, Bool.false_eq_true, if_false]
  norm_num
  rfl

/-- C7 witness. -/
theorem claim_C7_witness :
    defaultPrinter.maxSliceLength = 20 ∧ (List.replicate 21 0).length = 21 ∧
    ((List.replicate 21 0).contains 0 = true ∨ utf8ValidBytes (List.replicate 21 0) = false) ∧
    fprintF defaultPrinter emptyHeap 1 [] (Val.bytes 0 (List.replicate 21 0))
      = some ("[]byte\x7blen(21)\x7d") :=
  ⟨by decide, by decide, by decide,
    claim_C7 defaultPrinter emptyHeap 0 (List.replicate 21 0) 0 (by decide) (by decide)
      (by decide)⟩

/-- C10 (confirmed): rendering a nil top-level value emits exactly `nil`
when fewer than two indent arguments are given, and the concatenation of
all indent arguments after the first followed by `nil` otherwise — with no
newline and no indentation applied. -/
theorem claim_C10 (cfg : Cfg) (H : Heap) (fuel : Nat) (indent : List String) :
    (indent.length < 2 → fprintIndent cfg H fuel none indent = some (strBytes "nil")) ∧
    (2 ≤ indent.length →
       fprintIndent cfg H fuel none indent
         = some (strBytes (String.join (indent.drop 1) ++ "nil"))) := by
  constructor
  · intro h
    have : ¬ (1 < indent.length) := by omega
    simp [fprintIndent, this]
  · intro h
    have : 1 < indent.length := by omega
    simp [fprintIndent, this]

/-- C10 witness: three indent arguments concatenate the last two before
`nil`. -/
theorem claim_C10_witness :
    (["  ", "A", "B"] : List String).length ≥ 2 ∧
    fprintIndent defaultPrinter emptyHeap 1 none ["  ", "A", "B"]
      = some (strBytes (String.join ["A", "B"] ++ "nil")) :=
  ⟨by decide, (claim_C10 defaultPrinter emptyHeap 1 ["  ", "A", "B"]).2 (by decide)⟩

/-! ## The state-threaded renderer: Go's shared mutable visited map -/

/-- Threaded variant of `commaItems`: the visited set is the shared
mutable map, passed through every recursive call and returned. -/
def commaItemsT (renderT : List Nat → Val → Option (String × List Nat)) :
    List Val → Bool → List Nat → Option (String × List Nat)
  | [], _, s => some ("", s)
  | e :: rest, isFirst, s =>
    match renderT s e with
    | none => none
    | some (r, s1) =>
      match commaItemsT renderT rest false s1 with
      | none => none
      | some (tail, s2) => some ((if isFirst then "" else ",") ++ r ++ tail, s2)

/-- Threaded variant of `sliceItems`. -/
def sliceItemsT (renderT : List Nat → Val → Option (String × List Nat)) (maxSlice : Int) :
    List Val → Nat → List Nat → Option (String × List Nat)
  | [], _, s => some ("", s)
  | e :: rest, i, s =>
    if 0 < maxSlice ∧ maxSlice ≤ (i : Int) then
      some ((if 0 < i then "," else "") ++ "…", s)
    else
      match renderT s e with
      | none => none
      | some (r, s1) =>
        match sliceItemsT renderT maxSlice rest (i + 1) s1 with
        | none => none
        | some (tail, s2) => some ((if 0 < i then "," else "") ++ r ++ tail, s2)

/-- Threaded variant of `mapItems`. -/
def mapItemsT (renderT : List Nat → Val → Option (String × List Nat))
    (pairs : List (Val × Val)) :
    List Val → Bool → List Nat → Option (String × List Nat)
  | [], _, s => some ("", s)
  | k :: rest, isFirst, s =>
    match renderT s k with
    | none => none
    | some (kr, s1) =>
      match renderT s1 (mapLookup pairs k) with
      | none => none
      | some (vr, s2) =>
        match mapItemsT renderT pairs rest false s2 with
        | none => none
        | some (tail, s3) =>
          some ((if isFirst then "" else ";") ++ kr ++ ":" ++ vr ++ tail, s3)

/-- Threaded variant of `structItems`. -/
def structItemsT (renderT : List Nat → Val → Option (String × List Nat)) :
    List (String × Bool × Bool × Val) → Bool → List Nat → Option (String × List Nat)
  | [], _, s => some ("", s)
  | (fnm, anon, expo, fv) :: rest, isFirst, s =>
    if !expo then structItemsT renderT rest isFirst s
    else
      match renderT s fv with
      | none => none
      | some (r, s1) =>
        match structItemsT renderT rest false s1 with
        | none => none
        | some (tail, s2) =>
          some ((if isFirst then "" else ";") ++ (if anon then "" else fnm ++ ":") ++ r ++ tail, s2)

/-- Threaded variant of `fprintCore`: reference-bearing kinds insert their
identity into the shared set (`ptrs.visit`) and the deferred
`delete(ptrs, ptr)` erases it again when the call returns. -/
def fprintCoreT (cfg : Cfg) (H : Heap)
    (renderT : List Nat → Val → Option (String × List Nat))
    (strip : Val → Option Val) (visited : List Nat) (v : Val) :
    Option (String × List Nat) :=
  match strip v with
  | none => none
  | some v' =>
    match v' with
    | .vnil => some ("nil", visited)
    | .ptr _ => none
    | .iface _ => none
    | .vstr s => some (String.mk (quoteStringM s.data cfg.maxStringLength), visited)
    | .vbool b => some ((if b then "true" else "false"), visited)
    | .vint i => some (toString i, visited)
    | .arr elems =>
        match commaItemsT renderT elems true visited with
        | none => none
        | some (body, s1) => some ("[" ++ body ++ "]", s1)
    | .slice a =>
        if a ∈ visited then some (CircularRef, visited)
        else
          match sliceItemsT renderT cfg.maxSliceLength (H.slicev a) 0 (a :: visited) with
          | none => none
          | some (body, s1) => some ("[" ++ body ++ "]", s1.erase a)
    | .bytes a bs =>
        if a ∈ visited then some (CircularRef, visited)
        else if !bs.contains 0 && utf8ValidBytes bs then
          some (String.mk (quoteStringM (utf8Chars bs) cfg.maxStringLength),
            (a :: visited).erase a)
        else if 0 < cfg.maxSliceLength ∧ cfg.maxSliceLength < (bs.length : Int) then
          some ("[]byte\x7blen(" ++ toString bs.length ++ ")\x7d", (a :: visited).erase a)
        else
          match sliceItemsT renderT cfg.maxSliceLength
              (bs.map fun b => Val.vint b) 0 (a :: visited) with
          | none => none
          | some (body, s1) => some ("[" ++ body ++ "]", s1.erase a)
    | .runes a rs =>
        if a ∈ visited then some (CircularRef, visited)
        else if rs.all fun r => 0 < r && validRune r then
          some (String.mk (quoteStringM (rs.map intChar) cfg.maxStringLength),
            (a :: visited).erase a)
        else
          match sliceItemsT renderT cfg.maxSliceLength
              (rs.map fun r => Val.vint r) 0 (a :: visited) with
          | none => none
          | some (body, s1) => some ("[" ++ body ++ "]", s1.erase a)
    | .mapv a =>
        if a ∈ visited then some (CircularRef, visited)
        else
          let md := H.mapv a
          let keys := sortSlice
            (keyLess (fun u => (renderT (a :: visited) u).map Prod.fst) md.2.1)
            (md.2.2.map Prod.fst)
          match mapItemsT renderT md.2.2 keys true (a :: visited) with
          | none => none
          | some (body, s1) => some (md.1 ++ "\x7b" ++ body ++ "\x7d", s1.erase a)
    | .strct nm fields =>
        match structItemsT renderT fields true visited with
        | none => none
        | some (body, s1) => some (nm ++ "\x7b" ++ body ++ "\x7d", s1)

/-- Model of `Printer.fprint` with Go's shared mutable visited map made
explicit: the set is passed in and the final set is returned alongside the
output. -/
def fprintGo (cfg : Cfg) (H : Heap) : Nat → List Nat → Val → Option (String × List Nat)
  | 0, _, _ => none
  | fuel + 1, visited, v =>
    match v with
    | .ptr a =>
      if a ∈ visited then some (CircularRef, visited)
      else
        match fprintCoreT cfg H (fun s u => fprintGo cfg H fuel s u)
            (fun u => stripDeref H (fuel + 1) u) (a :: visited) (.ptr a) with
        | none => none
        | some (o, s1) => some (o, s1.erase a)
    | w =>
      fprintCoreT cfg H (fun s u => fprintGo cfg H fuel s u)
        (fun u => stripDeref H (fuel + 1) u) visited w

theorem commaItemsT_eq (renderT : List Nat → Val → Option (String × List Nat))
    (render : List Nat → Val → Option String)
    (hyp : ∀ s u, renderT s u = (render s u).map fun o => (o, s)) :
    ∀ (l : List Val) (first : Bool) (s : List Nat),
      commaItemsT renderT l first s
        = (commaItems (render s) l first).map fun o => (o, s) := by
  intro l
  induction l with
  | nil => intro first s; rfl
  | cons e rest ih =>
    intro first s
    rw [commaItemsT, commaItems, hyp s e]
    cases h : render s e with
    | none => rfl
    | some r =>
      simp only [Option.map_some', Option.some_bind]
      rw [ih false s]
      cases h2 : commaItems (render s) rest false with
      | none => rfl
      | some t => rfl

theorem sliceItemsT_eq (renderT : List Nat → Val → Option (String × List Nat))
    (render : List Nat → Val → Option String)
    (hyp : ∀ s u, renderT s u = (render s u).map fun o => (o, s)) (maxSlice : Int) :
    ∀ (l : List Val) (i : Nat) (s : List Nat),
      sliceItemsT renderT maxSlice l i s
        = (sliceItems (render s) maxSlice l i).map fun o => (o, s) := by
  intro l
  induction l with
  | nil => intro i s; rfl
  | cons e rest ih =>
    intro i s
    rw [sliceItemsT, sliceItems]
    by_cases hc : 0 < maxSlice ∧ maxSlice ≤ (i : Int)
    · simp only [if_pos hc]; rfl
    · simp only [if_neg hc]
      rw [hyp s e]
      cases h : render s e with
      | none => rfl
      | some r =>
        simp only [Option.map_some', Option.some_bind]
        rw [ih (i + 1) s]
        cases h2 : sliceItems (render s) maxSlice rest (i + 1) with
        | none => rfl
        | some t => rfl

theorem mapItemsT_eq (renderT : List Nat → Val → Option (String × List Nat))
    (render : List Nat → Val → Option String)
    (hyp : ∀ s u, renderT s u = (render s u).map fun o => (o, s))
    (pairs : List (Val × Val)) :
    ∀ (ks : List Val) (first : Bool) (s : List Nat),
      mapItemsT renderT pairs ks first s
        = (mapItems (render s) pairs ks first).map fun o => (o, s) := by
  intro ks
  induction ks with
  | nil => intro first s; rfl
  | cons k rest ih =>
    intro first s
    rw [mapItemsT, mapItems, hyp s k]
    cases h : render s k with
    | none => rfl
    | some kr =>
      simp only [Option.map_some', Option.some_bind]
      rw [hyp s (mapLookup pairs k)]
      cases h2 : render s (mapLookup pairs k) with
      | none => rfl
      | some vr =>
        simp only [Option.map_some', Option.some_bind]
        rw [ih false s]
        cases h3 : mapItems (render s) pairs rest false with
        | none => rfl
        | some t => rfl

theorem structItemsT_eq (renderT : List Nat → Val → Option (String × List Nat))
    (render : List Nat → Val → Option String)
    (hyp : ∀ s u, renderT s u = (render s u).map fun o => (o, s)) :
    ∀ (fs : List (String × Bool × Bool × Val)) (first : Bool) (s : List Nat),
      structItemsT renderT fs first s
        = (structItems (render s) fs first).map fun o => (o, s) := by
  intro fs
  induction fs with
  | nil => intro first s; rfl
  | cons f rest ih =>
    intro first s
    obtain ⟨fnm, anon, expo, fv⟩ := f
    rw [structItemsT, structItems]
    cases expo with
    | false =>
      simp only [Bool.not_false]
      rw [if_pos trivial, if_pos trivial]
      exact ih first s
    | true =>
      simp only [Bool.not_true]
      rw [if_neg Bool.false_ne_true, if_neg Bool.false_ne_true]
      rw [hyp s fv]
      cases h : render s fv with
      | none => rfl
      | some r =>
        simp only [Option.map_some', Option.some_bind]
        rw [ih false s]
        cases h2 : structItems (render s) rest false with
        | none => rfl
        | some t => rfl

theorem fprintCoreT_eq (cfg : Cfg) (H : Heap)
    (renderT : List Nat → Val → Option (String × List Nat))
    (render : List Nat → Val → Option String)
    (strip : Val → Option Val)
    (hyp : ∀ s u, renderT s u = (render s u).map fun o => (o, s)) :
    ∀ (s : List Nat) (v : Val),
      fprintCoreT cfg H renderT strip s v
        = (fprintCore cfg H render strip s v).map fun o => (o, s) := by
  intro s v
  rw [fprintCoreT, fprintCore]
  cases hsv : strip v with
  | none => rfl
  | some v' =>
    cases v' with
    | vnil => rfl
    | ptr _ => rfl
    | iface _ => rfl
    | vstr str => rfl
    | vbool b => rfl
    | vint i => rfl
    | arr elems =>
      cases h : commaItems (render s) elems true <;>
        simp only [commaItemsT_eq renderT render hyp, h, Option.map_some', Option.map_none'] <;>
        rfl
    | slice a =>
      by_cases hmem : a ∈ s
      · simp only [if_pos hmem]; rfl
      · cases h : sliceItems (render (a :: s)) cfg.maxSliceLength (H.slicev a) 0 <;>
          simp only [if_neg hmem, sliceItemsT_eq renderT render hyp, h,
            Option.map_some', Option.map_none', List.erase_cons_head] <;>
          rfl
    | bytes a bs =>
      by_cases hmem : a ∈ s
      · simp only [if_pos hmem]; rfl
      · simp only [if_neg hmem]
        by_cases h1 : (!bs.contains 0 && utf8ValidBytes bs) = true
        · rw [if_pos h1, if_pos h1, List.erase_cons_head]; rfl
        · rw [if_neg h1, if_neg h1]
          by_cases h2 : 0 < cfg.maxSliceLength ∧ cfg.maxSliceLength < (bs.length : Int)
          · rw [if_pos h2, if_pos h2, List.erase_cons_head]; rfl
          · rw [if_neg h2, if_neg h2]
            cases h : sliceItems (render (a :: s)) cfg.maxSliceLength
                (bs.map fun b => Val.vint b) 0 <;>
              simp only [sliceItemsT_eq renderT render hyp, h, Option.map_some',
                Option.map_none', List.erase_cons_head] <;>
              rfl
    | runes a rs =>
      by_cases hmem : a ∈ s
      · simp only [if_pos hmem]; rfl
      · simp only [if_neg hmem]
        by_cases h1 : (rs.all fun r => 0 < r && validRune r) = true
        · rw [if_pos h1, if_pos h1, List.erase_cons_head]; rfl
        · rw [if_neg h1, if_neg h1]
          cases h : sliceItems (render (a :: s)) cfg.maxSliceLength
              (rs.map fun r => Val.vint r) 0 <;>
            simp only [sliceItemsT_eq renderT render hyp, h, Option.map_some',
              Option.map_none', List.erase_cons_head] <;>
            rfl
    | mapv a =>
      by_cases hmem : a ∈ s
      · simp only [if_pos hmem]; rfl
      · simp only [if_neg hmem]
        have hcomp : (fun u => (renderT (a :: s) u).map Prod.fst)
            = fun u => render (a :: s) u := by
          funext u
          rw [hyp (a :: s) u]
          cases render (a :: s) u <;> rfl
        rw [hcomp]
        cases h : mapItems (render (a :: s)) (H.mapv a).2.2
            (sortSlice (keyLess (fun u => render (a :: s) u) (H.mapv a).2.1)
              ((H.mapv a).2.2.map Prod.fst)) true <;>
          simp only [mapItemsT_eq renderT render hyp, h, Option.map_some',
            Option.map_none', List.erase_cons_head] <;>
          rfl
    | strct nm fields =>
      cases h : structItems (render s) fields true <;>
        simp only [structItemsT_eq renderT render hyp, h, Option.map_some',
          Option.map_none'] <;>
        rfl

theorem fprintGo_eq (cfg : Cfg) (H : Heap) :
    ∀ (fuel : Nat) (s : List Nat) (v : Val),
      fprintGo cfg H fuel s v = (fprintF cfg H fuel s v).map fun o => (o, s) := by
  intro fuel
  induction fuel with
  | zero => intro s v; rfl
  | succ fuel ih =>
    intro s v
    cases v
    case ptr a =>
      rw [fprintGo, fprintF]
      by_cases hmem : a ∈ s
      · simp [hmem]
      · simp only [if_neg hmem]
        rw [fprintCoreT_eq cfg H _ (fun vis u => fprintF cfg H fuel vis u) _ ih (a :: s)
          (Val.ptr a)]
        cases h : fprintCore cfg H (fun vis u => fprintF cfg H fuel vis u)
            (fun u => stripDeref H (fuel + 1) u) (a :: s) (Val.ptr a) with
        | none => rfl
        | some o => simp [List.erase_cons_head]
    all_goals
      rw [fprintGo, fprintF]
    all_goals try (intro _ h; exact Val.noConfusion h)
    all_goals
      exact fprintCoreT_eq cfg H _ (fun vis u => fprintF cfg H fuel vis u) _ ih s _

/-- Heap for the sibling-sharing conjunct: address 1 holds the integer 5
and is referenced twice from two sibling array slots. -/
def siblingHeap : Heap :=
  ⟨fun a => if a = 1 then Val.vint 5 else Val.vnil, fun _ => [],
   fun _ => ("", KKind.kstr, [])⟩

/-- C6 (confirmed): the renderer with Go's shared mutable visited map made
explicit returns, from every call that terminates, exactly the functional
render together with the visited set unchanged from its state at entry —
i.e. entries live only while the renderer is inside the reference's
subtree on the active call stack (the functional model passes the set
extended only to that subtree).  Consequently a reference reached twice
via sibling, non-overlapping paths renders fully both times (second
conjunct: `[5,5]`, no marker, set restored to empty). -/
theorem claim_C6 (cfg : Cfg) (H : Heap) (fuel : Nat) (s : List Nat) (v : Val) :
    fprintGo cfg H fuel s v = (fprintF cfg H fuel s v).map (fun o => (o, s)) ∧
    fprintGo defaultPrinter siblingHeap 10 [] (Val.arr [Val.ptr 1, Val.ptr 1])
      = some ("[5,5]", []) :=
  ⟨fprintGo_eq cfg H fuel s v, by decide⟩

/-! ## Determinism of map rendering -/

theorem natLex_trans : ∀ x y z : List Nat,
    natLex x y = true → natLex y z = true → natLex x z = true := by
  intro x
  induction x with
  | nil =>
    intro y z h1 h2
    cases y with
    | nil => cases z <;> simp_all [natLex]
    | cons b ys =>
      cases z with
      | nil => simp [natLex] at h2
      | cons c zs => rfl
  | cons a xs ih =>
    intro y z h1 h2
    cases y with
    | nil => simp [natLex] at h1
    | cons b ys =>
      cases z with
      | nil => simp [natLex] at h2
      | cons c zs =>
        rw [natLex] at h1 h2 ⊢
        split_ifs at h1 h2 ⊢ <;> first | rfl | omega | exact ih ys zs h1 h2

theorem natLex_asym : ∀ x y : List Nat, natLex x y = true → natLex y x = false := by
  intro x
  induction x with
  | nil =>
    intro y h
    cases y with
    | nil => simp [natLex] at h
    | cons b ys => rfl
  | cons a xs ih =>
    intro y h
    cases y with
    | nil => simp [natLex] at h
    | cons b ys =>
      rw [natLex] at h ⊢
      split_ifs at h ⊢ <;> first | rfl | omega | exact ih ys h

theorem keyLess_trans (rt : Val → Option String) (kind : KKind) :
    ∀ x y z, keyLess rt kind x y = true → keyLess rt kind y z = true →
      keyLess rt kind x z = true := by
  intro x y z h1 h2
  cases kind <;> simp only [keyLess] at h1 h2 ⊢
  · exact natLex_trans _ _ _ h1 h2
  · simp only [decide_eq_true_eq] at h1 h2 ⊢
    omega
  · simp_all
  · exact natLex_trans _ _ _ h1 h2
  · exact natLex_trans _ _ _ h1 h2

theorem keyLess_asym (rt : Val → Option String) (kind : KKind) :
    ∀ x y, keyLess rt kind x y = true → keyLess rt kind y x = false := by
  intro x y h
  cases kind <;> simp only [keyLess] at h ⊢
  · exact natLex_asym _ _ h
  · simp only [decide_eq_true_eq] at h ⊢
    simp only [decide_eq_false_iff_not]
    omega
  · simp_all
  · exact natLex_asym _ _ h
  · exact natLex_asym _ _ h

theorem orderedInsert_perm (less : α → α → Bool) (x : α) :
    ∀ l, (orderedInsert less x l).Perm (x :: l) := by
  intro l
  induction l with
  | nil => exact List.Perm.refl _
  | cons h t ih =>
    rw [orderedInsert]
    by_cases hc : less x h = true
    · rw [if_pos hc]
    · rw [if_neg hc]
      exact (List.Perm.cons h ih).trans (List.Perm.swap x h t)

theorem sortSliceAux_perm (less : α → α → Bool) :
    ∀ (l acc : List α), (sortSliceAux less acc l).Perm (acc ++ l) := by
  intro l
  induction l with
  | nil => intro acc; rw [sortSliceAux, List.append_nil]
  | cons x rest ih =>
    intro acc
    rw [sortSliceAux]
    exact ((ih (orderedInsert less x acc)).trans
      ((orderedInsert_perm less x acc).append_right rest)).trans List.perm_middle.symm

theorem sortSlice_perm (less : α → α → Bool) (l : List α) :
    (sortSlice less l).Perm l := by
  simpa [sortSlice] using sortSliceAux_perm less l []

theorem orderedInsert_pairwise (less : α → α → Bool)
    (htrans : ∀ x y z, less x y = true → less y z = true → less x z = true) (x : α) :
    ∀ (acc : List α),
      acc.Pairwise (fun a b => less a b = true) →
      (∀ y ∈ acc, less x y = true ∨ less y x = true) →
      (orderedInsert less x acc).Pairwise (fun a b => less a b = true) := by
  intro acc
  induction acc with
  | nil => intro _ _; simp [orderedInsert]
  | cons h t ih =>
    intro hacc hx
    rcases List.pairwise_cons.mp hacc with ⟨hht, htp⟩
    rw [orderedInsert]
    by_cases hc : less x h = true
    · rw [if_pos hc]
      refine List.pairwise_cons.mpr ⟨?_, hacc⟩
      intro y hy
      rcases List.mem_cons.mp hy with rfl | hyt
      · exact hc
      · exact htrans x h y hc (hht y hyt)
    · rw [if_neg hc]
      refine List.pairwise_cons.mpr ⟨?_, ih htp ?_⟩
      · intro y hy
        have hy' := (orderedInsert_perm less x t).mem_iff.mp hy
        rcases List.mem_cons.mp hy' with rfl | hyt
        · rcases hx h (List.mem_cons_self h t) with h1 | h1
          · exact absurd h1 hc
          · exact h1
        · exact hht y hyt
      · intro y hyt
        exact hx y (List.mem_cons_of_mem h hyt)

theorem sortSliceAux_pairwise (less : α → α → Bool)
    (htrans : ∀ x y z, less x y = true → less y z = true → less x z = true) :
    ∀ (l acc : List α),
      acc.Pairwise (fun a b => less a b = true) →
      l.Pairwise (fun a b => less a b = true ∨ less b a = true) →
      (∀ x ∈ l, ∀ y ∈ acc, less x y = true ∨ less y x = true) →
      (sortSliceAux less acc l).Pairwise (fun a b => less a b = true) := by
  intro l
  induction l with
  | nil => intro acc hacc _ _; exact hacc
  | cons x rest ih =>
    intro acc hacc hl hcross
    rcases List.pairwise_cons.mp hl with ⟨hxrest, hrest⟩
    rw [sortSliceAux]
    refine ih (orderedInsert less x acc) ?_ hrest ?_
    · exact orderedInsert_pairwise less htrans x acc hacc
        (fun y hy => hcross x (List.mem_cons_self x rest) y hy)
    · intro z hz y hy
      have hy' := (orderedInsert_perm less x acc).mem_iff.mp hy
      rcases List.mem_cons.mp hy' with rfl | hyacc
      · rcases hxrest z hz with h1 | h1
        · exact Or.inr h1
        · exact Or.inl h1
      · exact hcross z (List.mem_cons_of_mem x hz) y hyacc

theorem sortSlice_pairwise (less : α → α → Bool)
    (htrans : ∀ x y z, less x y = true → less y z = true → less x z = true)
    (l : List α)
    (htri : l.Pairwise (fun a b => less a b = true ∨ less b a = true)) :
    (sortSlice less l).Pairwise (fun a b => less a b = true) := by
  refine sortSliceAux_pairwise less htrans l [] List.Pairwise.nil htri ?_
  intro x _ y hy
  simp at hy

theorem sortSlice_eq_of_perm (less : α → α → Bool)
    (htrans : ∀ x y z, less x y = true → less y z = true → less x z = true)
    (hasym : ∀ x y, less x y = true → less y x = false)
    (l₁ l₂ : List α) (hperm : l₁.Perm l₂)
    (htri : l₁.Pairwise (fun a b => less a b = true ∨ less b a = true)) :
    sortSlice less l₁ = sortSlice less l₂ := by
  have htri₂ : l₂.Pairwise (fun a b => less a b = true ∨ less b a = true) :=
    (hperm.pairwise_iff (fun h => Or.symm h)).mp htri
  have hperm' : (sortSlice less l₁).Perm (sortSlice less l₂) :=
    (sortSlice_perm less l₁).trans (hperm.trans (sortSlice_perm less l₂).symm)
  have hanti : IsAntisymm α (fun a b => less a b = true) := by
    refine ⟨fun a b hab hba => ?_⟩
    rw [hasym a b hab] at hba
    exact absurd hba (by simp)
  exact @List.eq_of_perm_of_sorted _ _ hanti _ _ hperm'
    (sortSlice_pairwise less htrans l₁ htri)
    (sortSlice_pairwise less htrans l₂ htri₂)

theorem find?_unique {α} (p : α → Bool) (x : α) :
    ∀ (l : List α), x ∈ l → p x = true → (∀ b ∈ l, p b = true → b = x) →
      l.find? p = some x := by
  intro l
  induction l with
  | nil => intro h; simp at h
  | cons h t ih =>
    intro hmem hpx huniq
    by_cases hph : p h = true
    · rw [List.find?_cons_of_pos _ hph]
      rw [huniq h (List.mem_cons_self h t) hph]
    · rw [List.find?_cons_of_neg _ (by simp [hph])]
      rcases List.mem_cons.mp hmem with rfl | hmt
      · exact absurd hpx hph
      · exact ih hmt hpx (fun b hb => huniq b (List.mem_cons_of_mem h hb))

theorem mapLookup_of_mem (pairs : List (Val × Val)) (p : Val × Val)
    (hdk : pairs.Pairwise fun p q => vbeq p.1 q.1 = false ∧ vbeq q.1 p.1 = false)
    (hmem : p ∈ pairs) :
    mapLookup pairs p.1 = p.2 := by
  have hsym : Symmetric (fun p q : Val × Val =>
      vbeq p.1 q.1 = false ∧ vbeq q.1 p.1 = false) := fun a b h => ⟨h.2, h.1⟩
  have hfind : pairs.find? (fun q => vbeq q.1 p.1) = some p := by
    apply find?_unique _ p pairs hmem (vbeq_refl p.1)
    intro b hb hpb
    by_contra hne
    rcases hdk.forall hsym hb hmem hne with ⟨h1, _⟩
    rw [h1] at hpb
    exact absurd hpb (by simp)
  rw [mapLookup, hfind]
  rfl

theorem mapItems_congr (r₁ r₂ : Val → Option String) (pairs₁ pairs₂ : List (Val × Val))
    (hr : ∀ u, r₁ u = r₂ u) :
    ∀ (ks : List Val) (first : Bool),
      (∀ k ∈ ks, mapLookup pairs₁ k = mapLookup pairs₂ k) →
      mapItems r₁ pairs₁ ks first = mapItems r₂ pairs₂ ks first := by
  intro ks
  induction ks with
  | nil => intro first _; rfl
  | cons k rest ih =>
    intro first hlk
    rw [mapItems, mapItems, hr k, hlk k (List.mem_cons_self k rest),
      hr (mapLookup pairs₂ k),
      ih false (fun k2 hk2 => hlk k2 (List.mem_cons_of_mem k hk2))]

theorem stripDeref_congr (H₁ H₂ : Heap) (hp : H₁.ptrv = H₂.ptrv) :
    ∀ (n : Nat) (v : Val), stripDeref H₁ n v = stripDeref H₂ n v := by
  intro n
  induction n with
  | zero => intro v; rfl
  | succ n ih =>
    intro v
    cases v
    case ptr a =>
      rw [stripDeref, stripDeref, hp]
      exact ih _
    case iface u =>
      rw [stripDeref, stripDeref]
      exact ih u
    all_goals rfl

theorem fprintCore_congr (cfg : Cfg) (H₁ H₂ : Heap)
    (render₁ render₂ : List Nat → Val → Option String)
    (strip₁ strip₂ : Val → Option Val)
    (hs : H₁.slicev = H₂.slicev)
    (hstrip : ∀ u, strip₁ u = strip₂ u)
    (vis : List Nat) (v : Val)
    (hmap : ∀ b, b ∉ vis → H₁.mapv b = H₂.mapv b)
    (h0 : render₁ vis = render₂ vis)
    (h1 : ∀ b, render₁ (b :: vis) = render₂ (b :: vis)) :
    fprintCore cfg H₁ render₁ strip₁ vis v = fprintCore cfg H₂ render₂ strip₂ vis v := by
  rw [fprintCore, fprintCore, hstrip v]
  cases hsv : strip₂ v with
  | none => rfl
  | some v' =>
    cases v' with
    | vnil => rfl
    | ptr _ => rfl
    | iface _ => rfl
    | vstr str => rfl
    | vbool b => rfl
    | vint i => rfl
    | arr elems => simp only [h0]
    | slice a => simp only [hs, h1 a]
    | bytes a bs => simp only [h1 a]
    | runes a rs => simp only [h1 a]
    | mapv a =>
      by_cases hmem : a ∈ vis
      · simp only [if_pos hmem]
      · simp only [if_neg hmem, hmap a hmem, h1 a]
    | strct nm fields => simp only [h0]

theorem fprintF_heap_agree (cfg : Cfg) (H₁ H₂ : Heap) (a₀ : Nat)
    (hp : H₁.ptrv = H₂.ptrv) (hs : H₁.slicev = H₂.slicev)
    (hm : ∀ b, b ≠ a₀ → H₁.mapv b = H₂.mapv b) :
    ∀ (fuel : Nat) (vis : List Nat) (v : Val), a₀ ∈ vis →
      fprintF cfg H₁ fuel vis v = fprintF cfg H₂ fuel vis v := by
  intro fuel
  induction fuel with
  | zero => intro vis v _; rfl
  | succ fuel ih =>
    intro vis v hmem
    have hrend : ∀ vis', a₀ ∈ vis' →
        (fun u => fprintF cfg H₁ fuel vis' u) = fun u => fprintF cfg H₂ fuel vis' u :=
      fun vis' hv => funext fun u => ih vis' u hv
    cases v
    case ptr b =>
      rw [fprintF, fprintF]
      by_cases hb : b ∈ vis
      · rw [if_pos hb, if_pos hb]
      · rw [if_neg hb, if_neg hb]
        refine fprintCore_congr cfg H₁ H₂ _ _ _ _ hs
          (fun u => stripDeref_congr H₁ H₂ hp (fuel + 1) u) (b :: vis) (Val.ptr b)
          ?_ ?_ ?_
        · intro c hc
          exact hm c fun hceq => hc (by rw [hceq]; exact List.mem_cons_of_mem b hmem)
        · exact hrend (b :: vis) (List.mem_cons_of_mem b hmem)
        · intro c
          exact hrend (c :: b :: vis)
            (List.mem_cons_of_mem c (List.mem_cons_of_mem b hmem))
    all_goals
      rw [fprintF, fprintF]
    all_goals try (intro _ h; exact Val.noConfusion h)
    all_goals
      refine fprintCore_congr cfg H₁ H₂ _ _ _ _ hs
        (fun u => stripDeref_congr H₁ H₂ hp (fuel + 1) u) vis _
        (fun c hc => hm c fun hceq => hc (by rw [hceq]; exact hmem)) (hrend vis hmem)
        (fun c => hrend (c :: vis) (List.mem_cons_of_mem c hmem))

theorem stripDeref_mapv (H : Heap) (n a : Nat) :
    stripDeref H (n + 1) (Val.mapv a) = some (Val.mapv a) := rfl

/-- C2 (amended).  Rendering a map is independent of the runtime iteration
order — modelled as two heaps holding the same map (the pair lists are
permutations of each other) at address `a`, agreeing everywhere else —
PROVIDED the keys are pairwise distinct and the comparator is total on
them (for every two keys one compares strictly below the other).  The
unamended claim is refuted by `claim_C2_counterexample`: keys of a kind
with no native ordering are compared by rendered text, and two distinct
pointer keys can render identically, so the comparator ties and the
output order follows the iteration order. -/
theorem claim_C2_amended (cfg : Cfg) (H₁ H₂ : Heap) (a : Nat)
    (nm : String) (kind : KKind) (pairs₁ pairs₂ : List (Val × Val)) (n : Nat)
    (hp : H₁.ptrv = H₂.ptrv) (hs : H₁.slicev = H₂.slicev)
    (hm : ∀ b, b ≠ a → H₁.mapv b = H₂.mapv b)
    (h₁ : H₁.mapv a = (nm, kind, pairs₁)) (h₂ : H₂.mapv a = (nm, kind, pairs₂))
    (hperm : pairs₁.Perm pairs₂)
    (htri : (pairs₁.map Prod.fst).Pairwise fun k₁ k₂ =>
        keyLess (fun u => fprintF cfg H₁ n [a] u) kind k₁ k₂ = true ∨
        keyLess (fun u => fprintF cfg H₁ n [a] u) kind k₂ k₁ = true)
    (hdk : pairs₁.Pairwise fun p q => vbeq p.1 q.1 = false ∧ vbeq q.1 p.1 = false) :
    fprintF cfg H₁ (n + 1) [] (Val.mapv a) = fprintF cfg H₂ (n + 1) [] (Val.mapv a) := by
  have hrfun : (fun u => fprintF cfg H₁ n [a] u) = fun u => fprintF cfg H₂ n [a] u :=
    funext fun u =>
      fprintF_heap_agree cfg H₁ H₂ a hp hs hm n [a] u (List.mem_cons_self a [])
  have hdk₂ : pairs₂.Pairwise fun p q => vbeq p.1 q.1 = false ∧ vbeq q.1 p.1 = false :=
    (hperm.pairwise_iff fun h => ⟨h.2, h.1⟩).mp hdk
  have hkeys : sortSlice (keyLess (fun u => fprintF cfg H₂ n [a] u) kind)
        (pairs₂.map Prod.fst)
      = sortSlice (keyLess (fun u => fprintF cfg H₁ n [a] u) kind)
        (pairs₁.map Prod.fst) := by
    rw [← hrfun]
    exact (sortSlice_eq_of_perm _ (keyLess_trans _ _) (keyLess_asym _ _) _ _
      (hperm.map Prod.fst) htri).symm
  have hlk : ∀ k ∈ sortSlice (keyLess (fun u => fprintF cfg H₁ n [a] u) kind)
      (pairs₁.map Prod.fst), mapLookup pairs₁ k = mapLookup pairs₂ k := by
    intro k hk
    have hk' : k ∈ pairs₁.map Prod.fst := (sortSlice_perm _ _).mem_iff.mp hk
    obtain ⟨p, hp₁, hpk⟩ := List.mem_map.mp hk'
    subst hpk
    rw [mapLookup_of_mem pairs₁ p hdk hp₁,
      mapLookup_of_mem pairs₂ p hdk₂ (hperm.mem_iff.mp hp₁)]
  have hitems := mapItems_congr (fun u => fprintF cfg H₁ n [a] u)
    (fun u => fprintF cfg H₂ n [a] u) pairs₁ pairs₂ (fun u => congrFun hrfun u)
    (sortSlice (keyLess (fun u => fprintF cfg H₁ n [a] u) kind)
      (pairs₁.map Prod.fst)) true hlk
  have hexp : ∀ (H : Heap), fprintF cfg H (n + 1) [] (Val.mapv a) =
      fprintCore cfg H (fun vis u => fprintF cfg H n vis u)
        (fun u => stripDeref H (n + 1) u) [] (Val.mapv a) := fun H => rfl
  rw [hexp H₁, hexp H₂]
  simp only [fprintCore, stripDeref_mapv]
  have hnil : a ∉ ([] : List Nat) := List.not_mem_nil a
  rw [if_neg hnil, if_neg hnil]
  simp only [h₁, h₂]
  rw [hkeys, hitems]

/-- A heap holding at address 1 an int-keyed map `\x7b1:10, 2:20\x7d` with the
pairs in one iteration order. -/
def wH1 : Heap :=
  ⟨fun _ => Val.vnil, fun _ => [],
   fun b => if b = 1 then ("", .kint, [(Val.vint 1, Val.vint 10), (Val.vint 2, Val.vint 20)])
            else ("", .kint, [])⟩

/-- The same map as [GoPretty.wH1] with the pairs in the other iteration
order. -/
def wH2 : Heap :=
  ⟨fun _ => Val.vnil, fun _ => [],
   fun b => if b = 1 then ("", .kint, [(Val.vint 2, Val.vint 20), (Val.vint 1, Val.vint 10)])
            else ("", .kint, [])⟩

/-- Witness for C2: the int-keyed map renders identically from both
iteration orders, and concretely to the sorted text. -/
theorem claim_C2_witness :
    fprintF defaultPrinter wH1 4 [] (Val.mapv 1) =
      fprintF defaultPrinter wH2 4 [] (Val.mapv 1) ∧
    fprintF defaultPrinter wH1 4 [] (Val.mapv 1) = some "\x7b1:10;2:20\x7d" :=
  ⟨claim_C2_amended defaultPrinter wH1 wH2 1 "" .kint
      [(Val.vint 1, Val.vint 10), (Val.vint 2, Val.vint 20)]
      [(Val.vint 2, Val.vint 20), (Val.vint 1, Val.vint 10)] 3
      rfl rfl (fun b hb => by simp only [wH1, wH2]; rw [if_neg hb, if_neg hb])
      rfl rfl (List.Perm.swap _ _ _) (by decide) (by decide),
    by decide⟩

/-- A heap whose map at address 0 has two DISTINCT pointer keys (a kind
with no native ordering) that render to the same text "7", in one
iteration order. -/
def tieH1 : Heap :=
  ⟨fun _ => Val.vint 7, fun _ => [],
   fun b => if b = 0 then ("", .kother, [(Val.ptr 1, Val.vint 1), (Val.ptr 2, Val.vint 2)])
            else ("", .kother, [])⟩

/-- The same map as [GoPretty.tieH1] in the other iteration order. -/
def tieH2 : Heap :=
  ⟨fun _ => Val.vint 7, fun _ => [],
   fun b => if b = 0 then ("", .kother, [(Val.ptr 2, Val.vint 2), (Val.ptr 1, Val.vint 1)])
            else ("", .kother, [])⟩

/-- Counterexample to C2 as stated: two heaps holding the SAME map (same
pointer store, same pairs up to permutation — the two runtime iteration
orders) render to different bytes, because the fallback comparator ties
on the two distinct keys whose rendered text is identical. -/
theorem claim_C2_counterexample :
    tieH1.ptrv = tieH2.ptrv ∧ tieH1.slicev = tieH2.slicev ∧
    tieH1.mapv 5 = tieH2.mapv 5 ∧
    ((tieH1.mapv 0).2.2).Perm ((tieH2.mapv 0).2.2) ∧
    fprintF defaultPrinter tieH1 4 [] (Val.mapv 0) = some "\x7b7:1;7:2\x7d" ∧
    fprintF defaultPrinter tieH2 4 [] (Val.mapv 0) = some "\x7b7:2;7:1\x7d" :=
  ⟨rfl, rfl, rfl, List.Perm.swap _ _ _, by decide, by decide⟩

end GoPretty
